import Mathlib

/-!
Verification development for the sonic-gnmi file-transfer handlers.

This file gives a shallow embedding of the Go code in the repository:

* the path validator `validatePath` and the container path translation
  `translatePathForContainer` (package `file`);
* the gNOI `Put` receiver `HandlePut`;
* the local transfer handler `handleTransferToRemoteLocal`;
* the DPU streaming proxy `HandleTransferToRemoteForDPUStreaming`;
* the routing wrapper `HandleTransferToRemote`;
* the delete handler `HandleFileRemove`;
* the two `parseMethod` implementations of the auth middleware
  (a lookup-table variant and a switch variant).

Strings are modelled as `List Char`, byte contents as `List Nat`, the
filesystem as an association list from paths to contents, and gRPC
streams / fallible OS and network operations as explicit environments
of events and failure oracles.  The MD5 digest is an abstract parameter
`md5 : Bytes → Bytes`: the incremental hasher of the Go code is modelled
by accumulating the observed bytes and applying `md5` to the
concatenation, which is the defining property of an incremental hash.
-/

abbrev Str := List Char
abbrev Bytes := List Nat

/-- Go `strings.HasPrefix s pre` over `List Char`. -/
def goStartsWith : Str → Str → Bool
  | _, [] => true
  | [], _ :: _ => false
  | c :: cs, p :: ps => if c = p then goStartsWith cs ps else false

/-- Go `strings.Contains s sub` over `List Char`. -/
def goContains : Str → Str → Bool
  | [], sub => sub.isEmpty
  | c :: rest, sub => goStartsWith (c :: rest) sub || goContains rest sub

/-- Go `strings.Split s (String.singleton c)`: split around every occurrence
of the separator character; `split "" = [""]`. -/
def splitChar (c : Char) : Str → List Str
  | [] => [[]]
  | x :: xs =>
    if x = c then [] :: splitChar c xs
    else
      match splitChar c xs with
      | [] => [[x]]
      | s :: ss => (x :: s) :: ss

/-- Join path elements with a separator character (`strings.Join`). -/
def goJoin (c : Char) : List Str → Str
  | [] => []
  | [s] => s
  | s :: t :: rest => s ++ c :: goJoin c (t :: rest)

/-- Go `filepath.IsAbs` on Unix: the path begins with a separator. -/
def isAbs (p : Str) : Bool := goStartsWith p "/".toList

/-- The element-stack phase of Go `filepath.Clean` (Unix): skip empty and
`.` elements; on `..` pop a non-`..` top, drop at the root when rooted,
or keep the `..` when relative; push every other element.  The stack is
kept top-first. -/
def cleanStack (rooted : Bool) : List Str → List Str → List Str
  | [], stack => stack
  | e :: es, stack =>
    if e = [] ∨ e = ['.'] then cleanStack rooted es stack
    else if e = ['.', '.'] then
      match stack with
      | [] =>
        if rooted then cleanStack rooted es []
        else cleanStack rooted es [['.', '.']]
      | top :: rest =>
        if top = ['.', '.'] then cleanStack rooted es (['.', '.'] :: top :: rest)
        else cleanStack rooted es rest
    else cleanStack rooted es (e :: stack)

/-- Go `filepath.Clean` (Unix): lexical path normalisation. -/
def filepathClean (p : Str) : Str :=
  if p = [] then ['.']
  else
    let rooted := isAbs p
    let body := goJoin '/' (cleanStack rooted (splitChar '/' p) []).reverse
    if rooted then '/' :: body
    else if body = [] then ['.'] else body

/-- The rejection reasons of `validatePath`, one per error-return site. -/
inductive PathError
  | notAbsolute
  | traversal
  | notAllowed
  deriving DecidableEq, Repr

/-- `validatePath` from the `file` package: clean the path, require it to
be absolute, reject when the cleaned path contains the substring `..`,
and require one of the allow-listed directory prefixes `/tmp/`,
`/var/tmp/`.  `none` models a `nil` error (acceptance). -/
def validatePath (path : Str) : Option PathError :=
  let cleanPath := filepathClean path
  if ¬ isAbs cleanPath then some PathError.notAbsolute
  else if goContains cleanPath "..".toList then some PathError.traversal
  else if goStartsWith cleanPath "/tmp/".toList
      || goStartsWith cleanPath "/var/tmp/".toList then none
  else some PathError.notAllowed

/-- Whether the normalised path has an actual parent-traversal path
*segment* (a whole element equal to `..`), as the specification words
require — in contrast to the substring test the code performs. -/
def hasDotDotSegment (p : Str) : Bool :=
  (splitChar '/' p).any (fun e => e = "..".toList)

/-- Modelled from the spec (§4.1 and §8): the set of paths the
specification says the validator accepts — absolute, no parent-traversal
segment left after normalisation, and normalised form under one of the
allow-listed prefixes. -/
def specAccepts (p : Str) : Bool :=
  isAbs p && !hasDotDotSegment (filepathClean p)
    && (goStartsWith (filepathClean p) "/tmp/".toList
        || goStartsWith (filepathClean p) "/var/tmp/".toList)

/-- A filesystem: whether the container host mount `/mnt/host` exists,
and the regular files as an association list from path to content. -/
structure FS where
  hostMount : Bool
  files : List (Str × Bytes)
  deriving DecidableEq, Repr

def findFile : List (Str × Bytes) → Str → Option Bytes
  | [], _ => none
  | (q, v) :: rest, p => if p = q then some v else findFile rest p

def setFiles : List (Str × Bytes) → Str → Bytes → List (Str × Bytes)
  | [], p, v => [(p, v)]
  | (q, w) :: rest, p, v =>
    if p = q then (p, v) :: rest else (q, w) :: setFiles rest p v

def removeFiles : List (Str × Bytes) → Str → List (Str × Bytes)
  | [], _ => []
  | (q, w) :: rest, p =>
    if p = q then removeFiles rest p else (q, w) :: removeFiles rest p

def FS.lookup (fs : FS) (p : Str) : Option Bytes := findFile fs.files p

def FS.hasFile (fs : FS) (p : Str) : Bool := (fs.lookup p).isSome

def FS.setFile (fs : FS) (p : Str) (v : Bytes) : FS :=
  { fs with files := setFiles fs.files p v }

def FS.removeFile (fs : FS) (p : Str) : FS :=
  { fs with files := removeFiles fs.files p }

/-- Append bytes to an existing file (`f.Write` on an open file). -/
def FS.appendFile (fs : FS) (p : Str) (d : Bytes) : FS :=
  fs.setFile p ((fs.lookup p).getD [] ++ d)

/-- `os.Rename src dst`. -/
def FS.renameFile (fs : FS) (src dst : Str) : FS :=
  match fs.lookup src with
  | none => fs
  | some v => (fs.removeFile src).setFile dst v

/-- `translatePathForContainer`: clean the path and prepend `/mnt/host`
when the host mount exists. -/
def translatePathForContainer (fs : FS) (path : Str) : Str :=
  if fs.hostMount then "/mnt/host".toList ++ filepathClean path
  else filepathClean path

/-- gRPC status codes used by the handlers. -/
inductive Code
  | ok
  | invalidArgument
  | internal
  | dataLoss
  | canceled
  | deadlineExceeded
  | notFound
  | permissionDenied
  | unimplemented
  | unavailable
  | unknown
  deriving DecidableEq, Repr

/-- A `PutRequest`: the `oneof` of the gNOI `Put` protocol.  `other`
stands for a request with none of the three fields set. -/
inductive PutMsg
  | open (remoteFile : Str) (permissions : Nat)
  | contents (data : Bytes)
  | hash (digest : Bytes)
  | other
  deriving DecidableEq, Repr

/-- Error classes that `stream.Recv` can return. -/
inductive RecvErr
  | eof
  | canceled
  | deadlineExceeded
  | other
  deriving DecidableEq, Repr

/-- One interaction with the inbound `Put` stream: either a received
message or a receive error. -/
inductive PutEvent
  | msg (m : PutMsg)
  | err (e : RecvErr)
  deriving DecidableEq, Repr

/-- Incoming call metadata, restricted to the two routing keys the code
reads: the value lists of `x-sonic-ss-target-type` and
`x-sonic-ss-target-index`. -/
structure MDPairs where
  targetTypeVals : List Str
  targetIndexVals : List Str
  deriving DecidableEq, Repr

/-- `md.Get(key)` followed by `vals[0] if len(vals) > 0`. -/
def mdFirst (vals : List Str) : Str :=
  match vals with
  | [] => []
  | v :: _ => v

/-- Environment of a `HandlePut` call: the incoming metadata (when
`metadata.FromIncomingContext` succeeds), the stream events, and failure
oracles for the fallible OS/stream operations.  When `events` is
exhausted the stream is modelled as failing with a generic receive
error. -/
structure PutEnv where
  metadata : Option MDPairs
  events : List PutEvent
  openFileFails : Bool
  writeFails : Nat → Bool
  closeFails : Bool
  chmodFails : Bool
  renameFails : Bool
  sendCloseFails : Bool

/-- The error returns of `HandlePut`, one constructor per return site. -/
inductive PutErr
  | recvFirstFailed
  | firstNotOpen
  | emptyRemoteFile
  | invalidPath (e : PathError)
  | createTempFailed
  | unexpectedEof
  | streamCanceled
  | recvChunkFailed
  | writeChunkFailed
  | hashMismatch
  | badMessage
  | closeFailed
  | chmodFailed
  | renameFailed
  | sendCloseFailed
  deriving DecidableEq, Repr

/-- The gRPC status code attached at each `HandlePut` return site.
`sendCloseFailed` returns the transport error unwrapped, with no status
code of its own. -/
def PutErr.code : PutErr → Code
  | .recvFirstFailed => .internal
  | .firstNotOpen => .invalidArgument
  | .emptyRemoteFile => .invalidArgument
  | .invalidPath _ => .invalidArgument
  | .createTempFailed => .internal
  | .unexpectedEof => .invalidArgument
  | .streamCanceled => .canceled
  | .recvChunkFailed => .internal
  | .writeChunkFailed => .internal
  | .hashMismatch => .dataLoss
  | .badMessage => .invalidArgument
  | .closeFailed => .internal
  | .chmodFailed => .internal
  | .renameFailed => .internal
  | .sendCloseFailed => .unknown

/-- The receive loop of `HandlePut` (step 5): receive messages, append
`Contents` chunks to the temp file and to the running digest, stop on a
`Hash` message whose digest matches the accumulated digest.  `acc` is
the byte sequence fed to the hasher so far, `i` counts the writes for
the write-failure oracle. -/
def putLoop (md5 : Bytes → Bytes) (writeFails : Nat → Bool) (temp : Str) :
    List PutEvent → Nat → Bytes → FS → Option PutErr × FS
  | [], _, _, fs => (some PutErr.recvChunkFailed, fs)
  | PutEvent.err e :: _, _, _, fs =>
    match e with
    | RecvErr.eof => (some PutErr.unexpectedEof, fs)
    | RecvErr.canceled => (some PutErr.streamCanceled, fs)
    | RecvErr.deadlineExceeded => (some PutErr.streamCanceled, fs)
    | RecvErr.other => (some PutErr.recvChunkFailed, fs)
  | PutEvent.msg m :: rest, i, acc, fs =>
    match m with
    | PutMsg.contents data =>
      if writeFails i then (some PutErr.writeChunkFailed, fs)
      else putLoop md5 writeFails temp rest (i + 1) (acc ++ data) (fs.appendFile temp data)
    | PutMsg.hash received =>
      if md5 acc = received then (none, fs) else (some PutErr.hashMismatch, fs)
    | PutMsg.open _ _ => (some PutErr.badMessage, fs)
    | PutMsg.other => (some PutErr.badMessage, fs)

/-- The deferred cleanup of `HandlePut`: remove the temp file when it
still exists (`os.Stat` succeeds). -/
def cleanupTemp (fs : FS) (temp : Str) : FS :=
  if fs.hasFile temp then fs.removeFile temp else fs

/-- The temp path used by `HandlePut`: destination plus the `.tmp`
suffix. -/
def tempPathOf (translated : Str) : Str := translated ++ ".tmp".toList

/-- The digests carried by the `Hash` messages of an event list. -/
def hashDigests : List PutEvent → List Bytes
  | [] => []
  | PutEvent.msg (PutMsg.hash d) :: rest => d :: hashDigests rest
  | _ :: rest => hashDigests rest

/-- `HandlePut`: the complete logic of the `Put` RPC.  Step 0 inspects
the DPU routing metadata but only logs it — the request is always
handled locally.  Returns the error (or `none` on success) and the
final filesystem. -/
def HandlePut (md5 : Bytes → Bytes) (env : PutEnv) (fs : FS) :
    Option PutErr × FS :=
  -- Step 0: DPU headers are extracted and logged only; no routing.
  let _targetType := match env.metadata with
    | some md => mdFirst md.targetTypeVals
    | none => []
  let _targetIndex := match env.metadata with
    | some md => mdFirst md.targetIndexVals
    | none => []
  -- Step 1: first message must be Open.
  match env.events with
  | [] => (some PutErr.recvFirstFailed, fs)
  | PutEvent.err _ :: _ => (some PutErr.recvFirstFailed, fs)
  | PutEvent.msg m :: rest =>
    match m with
    | PutMsg.contents _ => (some PutErr.firstNotOpen, fs)
    | PutMsg.hash _ => (some PutErr.firstNotOpen, fs)
    | PutMsg.other => (some PutErr.firstNotOpen, fs)
    | PutMsg.open remoteFile perms =>
      if remoteFile = [] then (some PutErr.emptyRemoteFile, fs)
      else
        let _permissions := if perms = 0 then 0o644 else perms
        -- Step 2: path allow-list validation.
        match validatePath remoteFile with
        | some e => (some (PutErr.invalidPath e), fs)
        | none =>
          -- Step 3: container path translation.
          let translated := translatePathForContainer fs remoteFile
          -- Step 4: create the temp file (O_CREATE|O_WRONLY|O_TRUNC).
          let temp := tempPathOf translated
          if env.openFileFails then (some PutErr.createTempFailed, fs)
          else
            let fs1 := fs.setFile temp []
            -- Step 5/6: receive chunks, verify hash.
            match putLoop md5 env.writeFails temp rest 0 [] fs1 with
            | (some e, fs2) => (some e, cleanupTemp fs2 temp)
            | (none, fs2) =>
              -- Step 7: close the temp file.
              if env.closeFails then (some PutErr.closeFailed, cleanupTemp fs2 temp)
              -- Step 8: chmod (permission bits are not part of the FS model).
              else if env.chmodFails then (some PutErr.chmodFailed, cleanupTemp fs2 temp)
              -- Step 9: atomic rename onto the destination.
              else if env.renameFails then (some PutErr.renameFailed, cleanupTemp fs2 temp)
              else
                let fs3 := fs2.renameFile temp translated
                -- Step 10: send the success response.
                if env.sendCloseFails then (some PutErr.sendCloseFailed, cleanupTemp fs3 temp)
                else (none, cleanupTemp fs3 temp)

/-- The transfer protocols of `common.RemoteDownload`; only HTTP is
supported by the handlers. -/
inductive Protocol
  | http
  | sftp
  | scp
  deriving DecidableEq, Repr

/-- `common.RemoteDownload`: protocol tag and URL. -/
structure RemoteDownload where
  protocol : Protocol
  url : Str
  deriving DecidableEq, Repr

/-- `TransferToRemoteRequest`: destination path and optional source
descriptor. -/
structure TransferReq where
  localPath : Str
  remoteDownload : Option RemoteDownload
  deriving DecidableEq, Repr

/-- Environment of the local transfer handler: whether the HTTP download
fails, the downloaded bytes on success, and whether the MD5 file-read
fails afterwards. -/
structure LocalEnv where
  downloadErr : Bool
  body : Bytes
  md5FileErr : Bool

/-- Error returns of `handleTransferToRemoteLocal`, one per site. -/
inductive LocalErr
  | nilRequest
  | nilRemoteDownload
  | emptyLocalPath
  | invalidLocalPath (e : PathError)
  | unsupportedProtocol
  | emptyUrl
  | downloadFailed
  | hashCalcFailed
  deriving DecidableEq, Repr

def LocalErr.code : LocalErr → Code
  | .nilRequest => .invalidArgument
  | .nilRemoteDownload => .invalidArgument
  | .emptyLocalPath => .invalidArgument
  | .invalidLocalPath _ => .invalidArgument
  | .unsupportedProtocol => .unimplemented
  | .emptyUrl => .invalidArgument
  | .downloadFailed => .internal
  | .hashCalcFailed => .internal

/-- `handleTransferToRemoteLocal`: validate the request, validate and
translate the destination, download under the deadline, hash the stored
file, and return the digest.  A download failure is modelled as leaving
no file (the download internals are outside the embedded sources); on a
hash failure the downloaded file is deleted before the error return. -/
def handleTransferToRemoteLocal (md5 : Bytes → Bytes) (lenv : LocalEnv)
    (req : Option TransferReq) (fs : FS) :
    (Option Bytes × Option LocalErr) × FS :=
  match req with
  | none => ((none, some LocalErr.nilRequest), fs)
  | some r =>
    match r.remoteDownload with
    | none => ((none, some LocalErr.nilRemoteDownload), fs)
    | some rd =>
      if r.localPath = [] then ((none, some LocalErr.emptyLocalPath), fs)
      else
        match validatePath r.localPath with
        | some e => ((none, some (LocalErr.invalidLocalPath e)), fs)
        | none =>
          if rd.protocol ≠ Protocol.http then
            ((none, some LocalErr.unsupportedProtocol), fs)
          else if rd.url = [] then ((none, some LocalErr.emptyUrl), fs)
          else
            let translated := translatePathForContainer fs r.localPath
            if lenv.downloadErr then ((none, some LocalErr.downloadFailed), fs)
            else
              let fs1 := fs.setFile translated lenv.body
              if lenv.md5FileErr then
                ((none, some LocalErr.hashCalcFailed), fs1.removeFile translated)
              else ((some (md5 lenv.body), none), fs1)

/-- Result of one `Read` on the HTTP source stream: `ok` keeps reading,
`eof` is `io.EOF`, `err` is any other read error.  The bytes of the
event are delivered in either case (Go readers may return bytes together
with the terminating condition). -/
inductive ReadRes
  | ok
  | eof
  | err
  deriving DecidableEq, Repr

/-- Modelled from the spec (§4.2/§4.3): the failure classes of the DPU
connection resolution (`dpuproxy.GetDPUConnection`), whose
implementation is not among the embedded sources — only the distinction
between an unreachable peer and the other resolution failures matters
here. -/
inductive DpuConnErr
  | unreachable
  | notFound
  | otherFailure
  deriving DecidableEq, Repr

/-- Environment of the DPU streaming proxy: failure oracles for every
fallible step and the sequence of source-stream reads. -/
structure DpuEnv where
  httpStreamErr : Bool
  reads : List (Bytes × ReadRes)
  getConnErr : Option DpuConnErr
  putClientErr : Bool
  sendOpenErr : Bool
  sendContentErrAt : Nat → Bool
  sendHashErr : Bool
  closeAndRecvErr : Bool
  ctxDone : Nat → Bool

/-- Error returns of `HandleTransferToRemoteForDPUStreaming`, one per
return site. -/
inductive DpuErr
  | nilRequest
  | emptyDpuIndex
  | nilRemoteDownload
  | emptyLocalPath
  | unsupportedProtocol
  | emptyUrl
  | httpStreamFailed
  | dpuConnFailed (inner : DpuConnErr)
  | putClientFailed
  | sendOpenFailed
  | deadlineHit
  | sendContentFailed
  | readFailed
  | sendHashFailed
  | closeRecvFailed
  deriving DecidableEq, Repr

/-- The status code attached at each streaming-proxy return site.  Every
resolution failure — including an unreachable peer — is wrapped as
`internal` by the handler. -/
def DpuErr.code : DpuErr → Code
  | .nilRequest => .invalidArgument
  | .emptyDpuIndex => .invalidArgument
  | .nilRemoteDownload => .invalidArgument
  | .emptyLocalPath => .invalidArgument
  | .unsupportedProtocol => .unimplemented
  | .emptyUrl => .invalidArgument
  | .httpStreamFailed => .internal
  | .dpuConnFailed _ => .internal
  | .putClientFailed => .internal
  | .sendOpenFailed => .internal
  | .deadlineHit => .deadlineExceeded
  | .sendContentFailed => .internal
  | .readFailed => .internal
  | .sendHashFailed => .internal
  | .closeRecvFailed => .internal

/-- The read/send loop of the streaming proxy (step 5): check the
deadline, read a chunk through the tee reader (which feeds the digest
accumulator `acc`), send every non-empty chunk, break on EOF.  Returns
the error (if any), the accumulated source bytes, and the messages sent
so far.  An exhausted read list is modelled as a read error. -/
def dpuLoop (env : DpuEnv) :
    List (Bytes × ReadRes) → Nat → Bytes → List PutMsg →
    Option DpuErr × Bytes × List PutMsg
  | [], _, acc, tr => (some DpuErr.readFailed, acc, tr)
  | (data, res) :: rest, i, acc, tr =>
    if env.ctxDone i then (some DpuErr.deadlineHit, acc, tr)
    else
      let acc2 := acc ++ data
      if data = [] then
        match res with
        | ReadRes.ok => dpuLoop env rest (i + 1) acc2 tr
        | ReadRes.eof => (none, acc2, tr)
        | ReadRes.err => (some DpuErr.readFailed, acc2, tr)
      else
        if env.sendContentErrAt i then (some DpuErr.sendContentFailed, acc2, tr)
        else
          let tr2 := tr ++ [PutMsg.contents data]
          match res with
          | ReadRes.ok => dpuLoop env rest (i + 1) acc2 tr2
          | ReadRes.eof => (none, acc2, tr2)
          | ReadRes.err => (some DpuErr.readFailed, acc2, tr2)

/-- `HandleTransferToRemoteForDPUStreaming`: stream an HTTP source
directly into a `Put` call on the DPU connection, hashing concurrently;
no local filesystem staging.  Returns `((response hash, error), sent
messages, filesystem)`. -/
def HandleTransferToRemoteForDPUStreaming (md5 : Bytes → Bytes)
    (env : DpuEnv) (req : Option TransferReq) (dpuIndex : Str) (fs : FS) :
    (Option Bytes × Option DpuErr) × List PutMsg × FS :=
  match req with
  | none => ((none, some DpuErr.nilRequest), [], fs)
  | some r =>
    if dpuIndex = [] then ((none, some DpuErr.emptyDpuIndex), [], fs)
    else
      match r.remoteDownload with
      | none => ((none, some DpuErr.nilRemoteDownload), [], fs)
      | some rd =>
        if r.localPath = [] then ((none, some DpuErr.emptyLocalPath), [], fs)
        else if rd.protocol ≠ Protocol.http then
          ((none, some DpuErr.unsupportedProtocol), [], fs)
        else if rd.url = [] then ((none, some DpuErr.emptyUrl), [], fs)
        -- Step 1: open the HTTP stream.
        else if env.httpStreamErr then ((none, some DpuErr.httpStreamFailed), [], fs)
        else
          -- Step 2: resolve the cached DPU connection.
          match env.getConnErr with
          | some e => ((none, some (DpuErr.dpuConnFailed e)), [], fs)
          | none =>
            -- Step 3: open the Put stream and send Open.
            if env.putClientErr then ((none, some DpuErr.putClientFailed), [], fs)
            else if env.sendOpenErr then ((none, some DpuErr.sendOpenFailed), [], fs)
            else
              let tr0 := [PutMsg.open r.localPath 0o644]
              -- Steps 4/5: tee-hash and stream the chunks.
              match dpuLoop env env.reads 0 [] tr0 with
              | (some e, _, tr) => ((none, some e), tr, fs)
              | (none, acc, tr) =>
                -- Step 6: send the final hash.
                let hashBytes := md5 acc
                if env.sendHashErr then ((none, some DpuErr.sendHashFailed), tr, fs)
                else
                  let tr2 := tr ++ [PutMsg.hash hashBytes]
                  -- Step 7: close and await the acknowledgement.
                  if env.closeAndRecvErr then ((none, some DpuErr.closeRecvFailed), tr2, fs)
                  else ((some hashBytes, none), tr2, fs)

/-- The `Contents` bytes of a message trace, concatenated. -/
def contentBytes : List PutMsg → Bytes
  | [] => []
  | PutMsg.contents d :: rest => d ++ contentBytes rest
  | _ :: rest => contentBytes rest

/-- The digests of the `Hash` messages of a message trace. -/
def hashMsgs : List PutMsg → List Bytes
  | [] => []
  | PutMsg.hash d :: rest => d :: hashMsgs rest
  | _ :: rest => hashMsgs rest

/-- A well-formed read sequence: zero or more plain reads and a final
read that reports EOF. -/
def readsEndWithEof : List (Bytes × ReadRes) → Bool
  | [] => false
  | [(_, ReadRes.eof)] => true
  | (_, ReadRes.ok) :: rest => readsEndWithEof rest
  | _ => false

/-- The outcome of `HandleTransferToRemote`: either the DPU streaming
path ran, or the local handler ran. -/
inductive TransferOut
  | viaDpu (resp : Option Bytes) (err : Option DpuErr) (trace : List PutMsg)
  | viaLocal (resp : Option Bytes) (err : Option LocalErr)
  deriving DecidableEq, Repr

/-- `HandleTransferToRemote`: inspect the incoming metadata; when the
target type equals `dpu` and the target index is non-empty, run the DPU
streaming proxy on that index, otherwise run the local handler. -/
def HandleTransferToRemote (md5 : Bytes → Bytes) (denv : DpuEnv)
    (lenv : LocalEnv) (md : Option MDPairs) (req : Option TransferReq)
    (fs : FS) : TransferOut × FS :=
  match md with
  | some m =>
    let targetType := mdFirst m.targetTypeVals
    let targetIndex := mdFirst m.targetIndexVals
    if targetType = "dpu".toList ∧ targetIndex ≠ [] then
      let r := HandleTransferToRemoteForDPUStreaming md5 denv req targetIndex fs
      (TransferOut.viaDpu r.1.1 r.1.2 r.2.1, r.2.2)
    else
      let r := handleTransferToRemoteLocal md5 lenv req fs
      (TransferOut.viaLocal r.1.1 r.1.2, r.2)
  | none =>
    let r := handleTransferToRemoteLocal md5 lenv req fs
    (TransferOut.viaLocal r.1.1 r.1.2, r.2)

/-- `RemoveRequest`: the path to delete. -/
structure RemoveReq where
  remoteFile : Str
  deriving DecidableEq, Repr

/-- The OS failure classes `HandleFileRemove` distinguishes when
`os.Remove` fails on an existing file. -/
inductive RemoveFailKind
  | permission
  | otherFailure
  deriving DecidableEq, Repr

/-- Environment of `HandleFileRemove`: an oracle describing how
`os.Remove` fails on an existing file (`none` means the delete
succeeds); a missing file always yields the not-found class. -/
structure RemoveEnv where
  removeFails : Option RemoveFailKind

/-- Error returns of `HandleFileRemove`, one per site. -/
inductive RemoveErr
  | nilRequest
  | emptyRemoteFile
  | pathDenied
  | removeNotFound
  | removePermission
  | removeInternal
  deriving DecidableEq, Repr

def RemoveErr.code : RemoveErr → Code
  | .nilRequest => .invalidArgument
  | .emptyRemoteFile => .invalidArgument
  | .pathDenied => .permissionDenied
  | .removeNotFound => .notFound
  | .removePermission => .permissionDenied
  | .removeInternal => .internal

/-- `HandleFileRemove`: validate the request and the allow-list, translate
the path, attempt the delete, and map OS errors to status codes.  The
first component of the result pair is the `RemoveResponse` (`some ()` is
a non-nil `&RemoveResponse{}`, `none` is a nil response). -/
def HandleFileRemove (renv : RemoveEnv) (req : Option RemoveReq) (fs : FS) :
    (Option Unit × Option RemoveErr) × FS :=
  match req with
  | none => ((none, some RemoveErr.nilRequest), fs)
  | some r =>
    if r.remoteFile = [] then ((none, some RemoveErr.emptyRemoteFile), fs)
    else
      match validatePath r.remoteFile with
      | some _ => ((none, some RemoveErr.pathDenied), fs)
      | none =>
        let translated := translatePathForContainer fs r.remoteFile
        match fs.lookup translated with
        | none => ((some (), some RemoveErr.removeNotFound), fs)
        | some _ =>
          match renv.removeFails with
          | some RemoveFailKind.permission =>
            ((some (), some RemoveErr.removePermission), fs)
          | some RemoveFailKind.otherFailure =>
            ((some (), some RemoveErr.removeInternal), fs)
          | none => ((some (), none), fs.removeFile translated)

/-- The reflection/health short-circuit shared verbatim by both
`parseMethod` implementations. -/
def skipAuth (fullMethod : Str) : Bool :=
  goContains fullMethod "grpc.reflection".toList
    || goContains fullMethod "grpc.health".toList

namespace AuthTable

/-- The gNOI `service.Method → requires write` lookup table. -/
def gnoiMethods : List (Str × Bool) :=
  [("system.SetPackage".toList, true),
   ("system.Reboot".toList, true),
   ("system.KillProcess".toList, true),
   ("system.SwitchControlProcessor".toList, true),
   ("system.CancelReboot".toList, true),
   ("system.Ping".toList, false),
   ("system.Traceroute".toList, false),
   ("system.Time".toList, false),
   ("system.RebootStatus".toList, false)]

/-- The gNMI `Method → requires write` lookup table. -/
def gnmiMethods : List (Str × Bool) :=
  [("Set".toList, true), ("Get".toList, false), ("Subscribe".toList, false)]

/-- Go map lookup over an association list. -/
def lookupB : List (Str × Bool) → Str → Option Bool
  | [], _ => none
  | (k, v) :: rest, key => if key = k then some v else lookupB rest key

/-- The lookup-table `parseMethod`: split the full method, key the gNOI
table by `service.Method` for any `gnoi.`-prefixed service, and the gNMI
table by method name for `gnmi.gNMI`. -/
def parseMethod (fullMethod : Str) : Str × Bool :=
  if skipAuth fullMethod then ([], false)
  else
    match splitChar '/' fullMethod with
    | _ :: grpcServiceName :: methodName :: _ =>
      if goStartsWith grpcServiceName "gnoi.".toList then
        match splitChar '.' grpcServiceName with
        | _ :: serviceName :: _ =>
          match lookupB gnoiMethods (serviceName ++ '.' :: methodName) with
          | some w => ("gnoi".toList, w)
          | none => ("gnoi".toList, false)
        | _ => ("gnoi".toList, false)
      else if grpcServiceName = "gnmi.gNMI".toList then
        match lookupB gnmiMethods methodName with
        | some w => ("gnmi".toList, w)
        | none => ("gnmi".toList, false)
      else ("unknown".toList, false)
    | _ => ("unknown".toList, false)

end AuthTable

namespace AuthSwitch

/-- The gNOI System methods that require write access. -/
def writeOps : List Str :=
  ["Reboot".toList, "KillProcess".toList, "SetPackage".toList,
   "SwitchControlProcessor".toList, "CancelReboot".toList]

/-- The switch-based `parseMethod`: match on the literal service
substrings `/gnoi.system.System/` and `/gnmi.gNMI/` and take the last
slash-separated component as the method name. -/
def parseMethod (fullMethod : Str) : Str × Bool :=
  if skipAuth fullMethod then ([], false)
  else if goContains fullMethod "/gnoi.system.System/".toList then
    let parts := splitChar '/' fullMethod
    if 3 ≤ parts.length then
      let methodName := parts.getLast?.getD []
      if methodName ∈ writeOps then ("gnoi".toList, true)
      else ("gnoi".toList, false)
    else ("gnoi".toList, false)
  else if goContains fullMethod "/gnmi.gNMI/".toList then
    let parts := splitChar '/' fullMethod
    if 3 ≤ parts.length then
      let methodName := parts.getLast?.getD []
      if methodName = "Set".toList then ("gnmi".toList, true)
      else ("gnmi".toList, false)
    else ("gnmi".toList, false)
  else ("unknown".toList, false)

end AuthSwitch

/-- The `Contents` messages the streaming loop sends for a list of read
chunks: every non-empty chunk, in order. -/
def sentChunks (bs : List Bytes) : List PutMsg :=
  (bs.filter (fun b => !b.isEmpty)).map PutMsg.contents

/-- Number of occurrences of a character in a string. -/
def countChar (c : Char) : Str → Nat
  | [] => 0
  | x :: xs => (if x = c then 1 else 0) + countChar c xs

/-- The identity digest, used to instantiate the abstract `md5`
parameter in concrete runs. -/
def idDigest : Bytes → Bytes := fun b => b

/-- The empty filesystem outside a container. -/
def fsEmpty : FS := ⟨false, []⟩

/-- A `Put` environment with the given stream events and no injected
failures. -/
def putEnvOf (evs : List PutEvent) : PutEnv :=
  ⟨none, evs, false, fun _ => false, false, false, false, false⟩

/-- A DPU streaming environment with the given source reads and no
injected failures. -/
def dpuEnvOf (reads : List (Bytes × ReadRes)) : DpuEnv :=
  ⟨false, reads, none, false, false, fun _ => false, false, false, fun _ => false⟩

/-- Concrete event fixture: a well-formed upload of the single byte `1`
to `/tmp/w1`, hash matching under the identity digest. -/
def wEvsC1 : List PutEvent :=
  [PutEvent.msg (PutMsg.open "/tmp/w1".toList 0),
   PutEvent.msg (PutMsg.contents [1]),
   PutEvent.msg (PutMsg.hash [1])]

theorem goStartsWith_nil_right (s : Str) : goStartsWith s [] = true := by
  cases s <;> rfl

theorem goStartsWith_append_self (p m : Str) : goStartsWith (p ++ m) p = true := by
  induction p with
  | nil => exact goStartsWith_nil_right m
  | cons c cs ih => simp [goStartsWith, ih]

theorem goStartsWith_iff (p : Str) :
    ∀ s : Str, goStartsWith s p = true ↔ ∃ t, s = p ++ t := by
  induction p with
  | nil =>
    intro s
    simp [goStartsWith_nil_right]
  | cons c cs ih =>
    intro s
    cases s with
    | nil => simp [goStartsWith]
    | cons x xs =>
      constructor
      · intro h
        simp only [goStartsWith] at h
        by_cases hx : x = c
        · rw [if_pos hx] at h
          obtain ⟨t, ht⟩ := (ih xs).mp h
          exact ⟨t, by simp [hx, ht]⟩
        · rw [if_neg hx] at h
          exact absurd h (by simp)
      · rintro ⟨t, ht⟩
        simp only [List.cons_append, List.cons.injEq] at ht
        obtain ⟨hx, hxs⟩ := ht
        simp only [goStartsWith, if_pos hx]
        exact (ih xs).mpr ⟨t, hxs⟩

theorem goContains_of_startsWith {s sub : Str} (h : goStartsWith s sub = true) :
    goContains s sub = true := by
  cases s with
  | nil =>
    cases sub with
    | nil => rfl
    | cons p ps => simp [goStartsWith] at h
  | cons c cs => simp [goContains, h]

theorem goContains_tail {rest sub : Str} (c : Char)
    (h : goContains rest sub = true) : goContains (c :: rest) sub = true := by
  simp [goContains, h]

theorem goContains_iff (sub : Str) :
    ∀ s : Str, goContains s sub = true ↔ ∃ pre post, s = pre ++ sub ++ post := by
  intro s
  induction s with
  | nil =>
    simp only [goContains, List.isEmpty_iff]
    constructor
    · intro h; exact ⟨[], [], by simp [h]⟩
    · rintro ⟨pre, post, h⟩
      rcases List.append_eq_nil.mp h.symm with ⟨h1, h2⟩
      exact (List.append_eq_nil.mp h1).2
  | cons c cs ih =>
    simp only [goContains, Bool.or_eq_true]
    constructor
    · rintro (h | h)
      · obtain ⟨t, ht⟩ := (goStartsWith_iff sub _).mp h
        exact ⟨[], t, by simp [ht]⟩
      · obtain ⟨pre, post, h⟩ := ih.mp h
        exact ⟨c :: pre, post, by simp [h]⟩
    · rintro ⟨pre, post, h⟩
      cases pre with
      | nil =>
        left
        exact (goStartsWith_iff sub _).mpr ⟨post, by simpa using h⟩
      | cons d ds =>
        right
        simp only [List.cons_append, List.cons.injEq] at h
        exact ih.mpr ⟨ds, post, h.2⟩

theorem countChar_append (c : Char) (a b : Str) :
    countChar c (a ++ b) = countChar c a + countChar c b := by
  induction a with
  | nil => simp [countChar]
  | cons x xs ih => simp [countChar, ih]; omega

theorem countChar_eq_zero {c : Char} {l : Str} :
    countChar c l = 0 ↔ c ∉ l := by
  induction l with
  | nil => simp [countChar]
  | cons x xs ih =>
    simp only [countChar, List.mem_cons]
    by_cases hx : x = c
    · simp [hx]
    · simp only [if_neg hx, Nat.zero_add, ih]
      constructor
      · intro h
        rintro (hc | hc)
        · exact hx hc.symm
        · exact h hc
      · intro h hc
        exact h (Or.inr hc)

theorem sep_decomp_unique (c : Char) :
    ∀ A A' B B' : Str, c ∉ A → c ∉ A' →
      A ++ c :: B = A' ++ c :: B' → A = A' ∧ B = B' := by
  intro A
  induction A with
  | nil =>
    intro A' B B' _ hA' h
    cases A' with
    | nil => simpa using h
    | cons a as =>
      simp only [List.nil_append, List.cons_append, List.cons.injEq] at h
      exact absurd h.1 (by intro hc; exact hA' (by simp [hc]))
  | cons a as ih =>
    intro A' B B' hA hA' h
    cases A' with
    | nil =>
      simp only [List.cons_append, List.nil_append, List.cons.injEq] at h
      exact absurd h.1 (by intro hc; exact hA (by simp [hc]))
    | cons a2 as2 =>
      simp only [List.cons_append, List.cons.injEq] at h
      obtain ⟨h1, h2⟩ := h
      have hm : c ∉ as := fun hc => hA (List.mem_cons_of_mem a hc)
      have hm2 : c ∉ as2 := fun hc => hA' (List.mem_cons_of_mem a2 hc)
      obtain ⟨e1, e2⟩ := ih as2 B B' hm hm2 h2
      exact ⟨by simp [h1, e1], e2⟩

theorem splitChar_cons_self (c : Char) (xs : Str) :
    splitChar c (c :: xs) = [] :: splitChar c xs := by
  simp [splitChar]

theorem splitChar_shape (c : Char) :
    ∀ l : Str, ∃ s ss, splitChar c l = s :: ss ∧ goStartsWith l s = true := by
  intro l
  induction l with
  | nil => exact ⟨[], [], rfl, rfl⟩
  | cons x xs ih =>
    by_cases hx : x = c
    · exact ⟨[], splitChar c xs, by rw [hx, splitChar_cons_self], rfl⟩
    · obtain ⟨s, ss, heq, hpre⟩ := ih
      refine ⟨x :: s, ss, ?_, ?_⟩
      · simp [splitChar, hx, heq]
      · simp [goStartsWith, hpre]

theorem splitChar_no_sep (c : Char) :
    ∀ l : Str, c ∉ l → splitChar c l = [l] := by
  intro l
  induction l with
  | nil => intro _; rfl
  | cons x xs ih =>
    intro h
    have hx : x ≠ c := fun hc => h (by simp [hc])
    have hxs : c ∉ xs := fun hc => h (List.mem_cons_of_mem x hc)
    simp [splitChar, hx, ih hxs]

theorem splitChar_append_sep (c : Char) :
    ∀ A B : Str, c ∉ A → splitChar c (A ++ c :: B) = A :: splitChar c B := by
  intro A
  induction A with
  | nil => intro B _; simp [splitChar_cons_self]
  | cons a as ih =>
    intro B h
    have ha : a ≠ c := fun hc => h (by simp [hc])
    have has : c ∉ as := fun hc => h (List.mem_cons_of_mem a hc)
    simp [splitChar, ha, ih B has]

theorem mem_splitChar_no_sep (c : Char) :
    ∀ l e, e ∈ splitChar c l → c ∉ e := by
  intro l
  induction l with
  | nil =>
    intro e he
    simp only [splitChar, List.mem_singleton] at he
    simp [he]
  | cons x xs ih =>
    intro e he
    by_cases hx : x = c
    · rw [hx, splitChar_cons_self] at he
      rcases List.mem_cons.mp he with h | h
      · simp [h]
      · exact ih e h
    · obtain ⟨s, ss, heq, _⟩ := splitChar_shape c xs
      rw [show splitChar c (x :: xs) = (x :: s) :: ss by simp [splitChar, hx, heq]] at he
      rcases List.mem_cons.mp he with h | h
      · subst h
        intro hc
        rcases List.mem_cons.mp hc with h2 | h2
        · exact hx h2.symm
        · exact ih s (by rw [heq]; exact List.mem_cons_self s ss) h2
      · exact ih e (by rw [heq]; exact List.mem_cons_of_mem s h)

theorem mem_splitChar_contains (c : Char) :
    ∀ (l e : Str), e ∈ splitChar c l → goContains l e = true := by
  intro l
  induction l with
  | nil =>
    intro e he
    simp only [splitChar, List.mem_singleton] at he
    simp [he, goContains]
  | cons x xs ih =>
    intro e he
    by_cases hx : x = c
    · rw [hx, splitChar_cons_self] at he
      rcases List.mem_cons.mp he with h | h
      · subst h
        cases xs <;> simp [goContains, goStartsWith_nil_right]
      · exact goContains_tail x (ih e h)
    · obtain ⟨s, ss, heq, hpre⟩ := splitChar_shape c xs
      rw [show splitChar c (x :: xs) = (x :: s) :: ss by simp [splitChar, hx, heq]] at he
      rcases List.mem_cons.mp he with h | h
      · subst h
        apply goContains_of_startsWith
        simp [goStartsWith, hpre]
      · exact goContains_tail x (ih e (by rw [heq]; exact List.mem_cons_of_mem s h))

/-- The first occurrence of a character splits the string into a
separator-free head and a tail. -/
theorem mem_split_first (c : Char) :
    ∀ l : Str, c ∈ l → ∃ a b, l = a ++ c :: b ∧ c ∉ a := by
  intro l
  induction l with
  | nil => intro h; exact absurd h (List.not_mem_nil c)
  | cons x xs ih =>
    intro h
    by_cases hx : x = c
    · exact ⟨[], xs, by simp [hx], by simp⟩
    · have hxs : c ∈ xs := by
        rcases List.mem_cons.mp h with h2 | h2
        · exact absurd h2.symm hx
        · exact h2
      obtain ⟨a, b, hab, ha⟩ := ih hxs
      refine ⟨x :: a, b, by simp [hab], ?_⟩
      intro hc
      rcases List.mem_cons.mp hc with h2 | h2
      · exact hx h2.symm
      · exact ha h2

/-- A separator-free segment flanked by separators on both sides is an
element of the separator split. -/
theorem seg_mem_splitChar (c : Char) :
    ∀ (n : Nat) (pre inner post : Str), pre.length ≤ n → c ∉ inner →
      inner ∈ splitChar c (pre ++ c :: inner ++ c :: post) := by
  intro n
  induction n with
  | zero =>
    intro pre inner post hlen hin
    have hpre : pre = [] := List.length_eq_zero.mp (Nat.le_zero.mp hlen)
    subst hpre
    rw [show ([] : Str) ++ c :: inner ++ c :: post = [] ++ c :: (inner ++ c :: post) by simp]
    rw [splitChar_append_sep c [] _ (by simp), splitChar_append_sep c inner post hin]
    exact List.mem_cons_of_mem _ (List.mem_cons_self inner _)
  | succ m ih =>
    intro pre inner post hlen hin
    by_cases hc : c ∈ pre
    · obtain ⟨a, b, hdecomp, ha⟩ := mem_split_first c pre hc
      subst hdecomp
      rw [show (a ++ c :: b) ++ c :: inner ++ c :: post
            = a ++ c :: (b ++ c :: inner ++ c :: post) by simp]
      rw [splitChar_append_sep c a _ ha]
      have hb : b.length ≤ m := by
        simp only [List.length_append, List.length_cons] at hlen
        omega
      exact List.mem_cons_of_mem a (ih b inner post hb hin)
    · rw [show pre ++ c :: inner ++ c :: post = pre ++ c :: (inner ++ c :: post) by simp]
      rw [splitChar_append_sep c pre _ hc, splitChar_append_sep c inner post hin]
      exact List.mem_cons_of_mem pre (List.mem_cons_self inner _)

theorem appendLeftCancel (a : Str) :
    ∀ x y : Str, (a ++ x = a ++ y) ↔ x = y := by
  induction a with
  | nil => intro x y; simp
  | cons c cs ih => intro x y; simp [ih]

theorem findFile_setFiles_self (p : Str) (v : Bytes) :
    ∀ l, findFile (setFiles l p v) p = some v := by
  intro l
  induction l with
  | nil => simp [setFiles, findFile]
  | cons kv rest ih =>
    obtain ⟨q, w⟩ := kv
    by_cases h : p = q
    · simp [setFiles, findFile, h]
    · simp [setFiles, findFile, h, ih]

theorem findFile_setFiles_ne (p q : Str) (v : Bytes) (h : q ≠ p) :
    ∀ l, findFile (setFiles l p v) q = findFile l q := by
  intro l
  induction l with
  | nil => simp [setFiles, findFile, h]
  | cons kv rest ih =>
    obtain ⟨k, w⟩ := kv
    by_cases hk : p = k
    · subst hk
      simp [setFiles, findFile, h]
    · simp [setFiles, findFile, hk, ih]

theorem findFile_removeFiles_self (p : Str) :
    ∀ l, findFile (removeFiles l p) p = none := by
  intro l
  induction l with
  | nil => simp [removeFiles, findFile]
  | cons kv rest ih =>
    obtain ⟨k, w⟩ := kv
    by_cases hk : p = k
    · subst hk
      simp [removeFiles, ih]
    · simp [removeFiles, findFile, hk, ih]

theorem findFile_removeFiles_ne (p q : Str) (h : q ≠ p) :
    ∀ l, findFile (removeFiles l p) q = findFile l q := by
  intro l
  induction l with
  | nil => simp [removeFiles]
  | cons kv rest ih =>
    obtain ⟨k, w⟩ := kv
    by_cases hk : p = k
    · subst hk
      simp [removeFiles, findFile, h, ih]
    · simp [removeFiles, findFile, hk, ih]

theorem lookup_setFile_self (fs : FS) (p : Str) (v : Bytes) :
    (fs.setFile p v).lookup p = some v :=
  findFile_setFiles_self p v fs.files

theorem lookup_setFile_ne (fs : FS) (p q : Str) (v : Bytes) (h : q ≠ p) :
    (fs.setFile p v).lookup q = fs.lookup q :=
  findFile_setFiles_ne p q v h fs.files

theorem lookup_removeFile_self (fs : FS) (p : Str) :
    (fs.removeFile p).lookup p = none :=
  findFile_removeFiles_self p fs.files

theorem lookup_removeFile_ne (fs : FS) (p q : Str) (h : q ≠ p) :
    (fs.removeFile p).lookup q = fs.lookup q :=
  findFile_removeFiles_ne p q h fs.files

theorem lookup_appendFile_self (fs : FS) (p : Str) (d : Bytes) {a : Bytes}
    (h : fs.lookup p = some a) : (fs.appendFile p d).lookup p = some (a ++ d) := by
  unfold FS.appendFile
  rw [lookup_setFile_self, h]
  rfl

theorem lookup_appendFile_ne (fs : FS) (p q : Str) (d : Bytes) (h : q ≠ p) :
    (fs.appendFile p d).lookup q = fs.lookup q :=
  lookup_setFile_ne fs p q _ h

theorem lookup_cleanupTemp_self (fs : FS) (t : Str) :
    (cleanupTemp fs t).lookup t = none := by
  unfold cleanupTemp
  by_cases h : fs.hasFile t
  · rw [if_pos h]
    exact lookup_removeFile_self fs t
  · rw [if_neg h]
    unfold FS.hasFile at h
    cases hv : fs.lookup t with
    | none => rfl
    | some v => rw [hv] at h; exact absurd rfl h

theorem lookup_cleanupTemp_ne (fs : FS) (t q : Str) (h : q ≠ t) :
    (cleanupTemp fs t).lookup q = fs.lookup q := by
  unfold cleanupTemp
  by_cases hh : fs.hasFile t
  · rw [if_pos hh]
    exact lookup_removeFile_ne fs t q h
  · rw [if_neg hh]

theorem tempPathOf_ne (p : Str) : tempPathOf p ≠ p := by
  intro h
  have hl := congrArg List.length h
  have h4 : (".tmp".toList).length = 4 := by decide
  simp only [tempPathOf, List.length_append, h4] at hl
  omega

theorem putLoop_lookup_ne (md5 : Bytes → Bytes) (w : Nat → Bool) (temp q : Str)
    (hq : q ≠ temp) :
    ∀ (evs : List PutEvent) (i : Nat) (acc : Bytes) (fs : FS),
      ((putLoop md5 w temp evs i acc fs).2).lookup q = fs.lookup q := by
  intro evs
  induction evs with
  | nil => intro i acc fs; rfl
  | cons ev rest ih =>
    intro i acc fs
    cases ev with
    | err e => cases e <;> rfl
    | msg m =>
      cases m with
      | «open» rf perms => rfl
      | other => rfl
      | hash received =>
        simp only [putLoop]
        by_cases h : md5 acc = received
        · rw [if_pos h]
        · rw [if_neg h]
      | contents data =>
        simp only [putLoop]
        by_cases h : w i
        · simp [h]
        · simp only [h, Bool.false_eq_true, if_false, ih]
          exact lookup_appendFile_ne fs temp q data hq

theorem putLoop_success (md5 : Bytes → Bytes) (w : Nat → Bool) (temp : Str) :
    ∀ (evs : List PutEvent) (i : Nat) (acc : Bytes) (fs : FS),
      fs.lookup temp = some acc →
      (putLoop md5 w temp evs i acc fs).1 = none →
      ∃ b, ((putLoop md5 w temp evs i acc fs).2).lookup temp = some b
        ∧ md5 b ∈ hashDigests evs := by
  intro evs
  induction evs with
  | nil => intro i acc fs _ hr; exact absurd hr (by simp [putLoop])
  | cons ev rest ih =>
    intro i acc fs hfs hr
    cases ev with
    | err e => cases e <;> simp [putLoop] at hr
    | msg m =>
      cases m with
      | «open» rf perms => simp [putLoop] at hr
      | other => simp [putLoop] at hr
      | hash received =>
        simp only [putLoop] at hr ⊢
        by_cases h : md5 acc = received
        · rw [if_pos h] at hr ⊢
          exact ⟨acc, hfs, by rw [h]; exact List.mem_cons_self _ _⟩
        · rw [if_neg h] at hr
          exact absurd hr (by simp)
      | contents data =>
        simp only [putLoop] at hr ⊢
        by_cases h : w i
        · simp [h] at hr
        · simp only [h, Bool.false_eq_true, if_false] at hr ⊢
          have hfs2 : (fs.appendFile temp data).lookup temp = some (acc ++ data) :=
            lookup_appendFile_self fs temp data hfs
          obtain ⟨b, hb1, hb2⟩ := ih (i + 1) (acc ++ data) (fs.appendFile temp data) hfs2 hr
          exact ⟨b, hb1, hb2⟩

/-- C1 (amended): the atomic-replace discipline of `HandlePut`.  After
any run whose first stream message is `Open rf perms`: the temp file of
the destination is absent (or was never touched); every path other than
the temp path and the destination is unchanged; and the destination is
either unchanged, or — only on success or on a failure of the final
response send, i.e. never on any earlier failure path — holds content
whose digest equals a digest received in a `Hash` message. -/
theorem put_atomic_replace (md5 : Bytes → Bytes) (env : PutEnv) (fs : FS)
    (rf : Str) (perms : Nat)
    (hfirst : env.events.head? = some (PutEvent.msg (PutMsg.open rf perms))) :
    ((HandlePut md5 env fs).2.lookup (tempPathOf (translatePathForContainer fs rf)) = none
      ∨ (HandlePut md5 env fs).2.lookup (tempPathOf (translatePathForContainer fs rf))
          = fs.lookup (tempPathOf (translatePathForContainer fs rf)))
    ∧ (∀ p : Str, p ≠ tempPathOf (translatePathForContainer fs rf) →
        p ≠ translatePathForContainer fs rf →
        (HandlePut md5 env fs).2.lookup p = fs.lookup p)
    ∧ ((HandlePut md5 env fs).2.lookup (translatePathForContainer fs rf)
          = fs.lookup (translatePathForContainer fs rf)
      ∨ (((HandlePut md5 env fs).1 = none
            ∨ (HandlePut md5 env fs).1 = some PutErr.sendCloseFailed)
          ∧ ∃ b, (HandlePut md5 env fs).2.lookup (translatePathForContainer fs rf) = some b
              ∧ md5 b ∈ hashDigests env.events)) := by
  obtain ⟨rest, henv⟩ : ∃ rest, env.events = PutEvent.msg (PutMsg.open rf perms) :: rest := by
    cases h : env.events with
    | nil => rw [h] at hfirst; exact absurd hfirst (by simp)
    | cons a t =>
      rw [h] at hfirst
      simp only [List.head?_cons, Option.some.injEq] at hfirst
      exact ⟨t, by rw [hfirst]⟩
  set dest := translatePathForContainer fs rf with hdest
  set temp := tempPathOf dest with htemp
  have hdt : dest ≠ temp := fun h => tempPathOf_ne dest h.symm
  have hdig : hashDigests env.events = hashDigests rest := by rw [henv]; rfl
  suffices hmain : ∀ out : Option PutErr × FS, HandlePut md5 env fs = out →
      (out.2.lookup temp = none ∨ out.2.lookup temp = fs.lookup temp)
      ∧ (∀ p : Str, p ≠ temp → p ≠ dest → out.2.lookup p = fs.lookup p)
      ∧ (out.2.lookup dest = fs.lookup dest
        ∨ ((out.1 = none ∨ out.1 = some PutErr.sendCloseFailed)
            ∧ ∃ b, out.2.lookup dest = some b ∧ md5 b ∈ hashDigests env.events)) by
    exact hmain (HandlePut md5 env fs) rfl
  intro out hout
  simp only [HandlePut, henv] at hout
  by_cases h1 : rf = []
  · rw [if_pos h1] at hout
    subst hout
    exact ⟨Or.inr rfl, fun p _ _ => rfl, Or.inl rfl⟩
  · rw [if_neg h1] at hout
    cases hv : validatePath rf with
    | some e =>
      simp only [hv] at hout
      subst hout
      exact ⟨Or.inr rfl, fun p _ _ => rfl, Or.inl rfl⟩
    | none =>
      simp only [hv] at hout
      rw [← hdest, ← htemp] at hout
      by_cases ho : env.openFileFails
      · rw [if_pos ho] at hout
        subst hout
        exact ⟨Or.inr rfl, fun p _ _ => rfl, Or.inl rfl⟩
      · rw [if_neg ho] at hout
        cases hl : putLoop md5 env.writeFails temp rest 0 [] (fs.setFile temp []) with
        | mk r fs2 =>
          have hfs2_ne : ∀ p : Str, p ≠ temp → fs2.lookup p = fs.lookup p := by
            intro p hp
            have h2 := putLoop_lookup_ne md5 env.writeFails temp p hp rest 0 [] (fs.setFile temp [])
            rw [hl] at h2
            rw [h2]
            exact lookup_setFile_ne fs temp p [] hp
          have hcleanOut : ∀ e : PutErr, out = (some e, cleanupTemp fs2 temp) →
              (out.2.lookup temp = none ∨ out.2.lookup temp = fs.lookup temp)
              ∧ (∀ p : Str, p ≠ temp → p ≠ dest → out.2.lookup p = fs.lookup p)
              ∧ (out.2.lookup dest = fs.lookup dest
                ∨ ((out.1 = none ∨ out.1 = some PutErr.sendCloseFailed)
                    ∧ ∃ b, out.2.lookup dest = some b ∧ md5 b ∈ hashDigests env.events)) := by
            intro e he
            subst he
            refine ⟨Or.inl (lookup_cleanupTemp_self fs2 temp), ?_, ?_⟩
            · intro p hp _
              rw [lookup_cleanupTemp_ne fs2 temp p hp]
              exact hfs2_ne p hp
            · refine Or.inl ?_
              rw [lookup_cleanupTemp_ne fs2 temp dest hdt]
              exact hfs2_ne dest hdt
          cases r with
          | some e =>
            simp only [hl] at hout
            exact hcleanOut e hout.symm
          | none =>
            simp only [hl] at hout
            have hsucc : ∃ b, fs2.lookup temp = some b ∧ md5 b ∈ hashDigests rest := by
              have h2 := putLoop_success md5 env.writeFails temp rest 0 [] (fs.setFile temp [])
                (lookup_setFile_self fs temp []) (by rw [hl])
              rw [hl] at h2
              exact h2
            obtain ⟨b, hb1, hb2⟩ := hsucc
            by_cases hc : env.closeFails
            · rw [if_pos hc] at hout
              exact hcleanOut PutErr.closeFailed hout.symm
            · rw [if_neg hc] at hout
              by_cases hm : env.chmodFails
              · rw [if_pos hm] at hout
                exact hcleanOut PutErr.chmodFailed hout.symm
              · rw [if_neg hm] at hout
                by_cases hrn : env.renameFails
                · rw [if_pos hrn] at hout
                  exact hcleanOut PutErr.renameFailed hout.symm
                · rw [if_neg hrn] at hout
                  have hren : fs2.renameFile temp dest = (fs2.removeFile temp).setFile dest b := by
                    unfold FS.renameFile
                    rw [hb1]
                  have htemp_gone : ((fs2.removeFile temp).setFile dest b).lookup temp = none := by
                    rw [lookup_setFile_ne _ dest temp b (fun h => hdt h.symm)]
                    exact lookup_removeFile_self fs2 temp
                  have hcleanup : cleanupTemp ((fs2.removeFile temp).setFile dest b) temp
                      = (fs2.removeFile temp).setFile dest b := by
                    unfold cleanupTemp FS.hasFile
                    rw [htemp_gone]
                    simp
                  rw [hren, hcleanup] at hout
                  have hA : ((fs2.removeFile temp).setFile dest b).lookup temp = none := htemp_gone
                  have hB : ∀ p : Str, p ≠ temp → p ≠ dest →
                      ((fs2.removeFile temp).setFile dest b).lookup p = fs.lookup p := by
                    intro p hp hpd
                    rw [lookup_setFile_ne _ dest p b hpd, lookup_removeFile_ne fs2 temp p hp]
                    exact hfs2_ne p hp
                  have hC : ∃ b2, ((fs2.removeFile temp).setFile dest b).lookup dest = some b2
                      ∧ md5 b2 ∈ hashDigests env.events :=
                    ⟨b, lookup_setFile_self _ dest b, by rw [hdig]; exact hb2⟩
                  by_cases hs : env.sendCloseFails
                  · rw [if_pos hs] at hout
                    subst hout
                    exact ⟨Or.inl hA, hB, Or.inr ⟨Or.inr rfl, hC⟩⟩
                  · rw [if_neg hs] at hout
                    subst hout
                    exact ⟨Or.inl hA, hB, Or.inr ⟨Or.inl rfl, hC⟩⟩

/-- Witness for C1: a concrete successful upload run satisfying the
atomic-replace statement. -/
theorem put_atomic_replace_witness :
    ((putEnvOf wEvsC1).events.head?
        = some (PutEvent.msg (PutMsg.open "/tmp/w1".toList 0)))
    ∧ (((HandlePut idDigest (putEnvOf wEvsC1) fsEmpty).2.lookup
          (tempPathOf (translatePathForContainer fsEmpty "/tmp/w1".toList)) = none
        ∨ (HandlePut idDigest (putEnvOf wEvsC1) fsEmpty).2.lookup
            (tempPathOf (translatePathForContainer fsEmpty "/tmp/w1".toList))
            = fsEmpty.lookup (tempPathOf (translatePathForContainer fsEmpty "/tmp/w1".toList)))
      ∧ (∀ p : Str, p ≠ tempPathOf (translatePathForContainer fsEmpty "/tmp/w1".toList) →
          p ≠ translatePathForContainer fsEmpty "/tmp/w1".toList →
          (HandlePut idDigest (putEnvOf wEvsC1) fsEmpty).2.lookup p = fsEmpty.lookup p)
      ∧ ((HandlePut idDigest (putEnvOf wEvsC1) fsEmpty).2.lookup
            (translatePathForContainer fsEmpty "/tmp/w1".toList)
            = fsEmpty.lookup (translatePathForContainer fsEmpty "/tmp/w1".toList)
        ∨ (((HandlePut idDigest (putEnvOf wEvsC1) fsEmpty).1 = none
              ∨ (HandlePut idDigest (putEnvOf wEvsC1) fsEmpty).1 = some PutErr.sendCloseFailed)
            ∧ ∃ b, (HandlePut idDigest (putEnvOf wEvsC1) fsEmpty).2.lookup
                  (translatePathForContainer fsEmpty "/tmp/w1".toList) = some b
                ∧ idDigest b ∈ hashDigests (putEnvOf wEvsC1).events))) :=
  ⟨rfl, put_atomic_replace idDigest (putEnvOf wEvsC1) fsEmpty "/tmp/w1".toList 0 rfl⟩

/-- Counterexample for C1 as frozen: when the final response send fails
— a stream error, hence a failure path — `HandlePut` returns an error,
yet the destination file has been created (the rename already
happened).  So "on every failure path the destination is never created
or modified" is false as stated. -/
theorem put_sendclose_creates_destination :
    (HandlePut idDigest { putEnvOf wEvsC1 with sendCloseFails := true } fsEmpty).1
        = some PutErr.sendCloseFailed
    ∧ (HandlePut idDigest { putEnvOf wEvsC1 with sendCloseFails := true } fsEmpty).2.lookup
        "/tmp/w1".toList = some [1]
    ∧ fsEmpty.lookup "/tmp/w1".toList = none := by
  decide

theorem foldl_appendFile_lookup_ne (temp q : Str) (h : q ≠ temp) :
    ∀ (chunks : List Bytes) (fs : FS),
      (chunks.foldl (fun f d => f.appendFile temp d) fs).lookup q = fs.lookup q := by
  intro chunks
  induction chunks with
  | nil => intro fs; rfl
  | cons d ds ih =>
    intro fs
    rw [List.foldl_cons, ih]
    exact lookup_appendFile_ne fs temp q d h

theorem putLoop_chunks (md5 : Bytes → Bytes) (w : Nat → Bool) (temp : Str)
    (hw : ∀ j, w j = false) :
    ∀ (chunks : List Bytes) (evs : List PutEvent) (i : Nat) (acc : Bytes) (fs : FS),
      putLoop md5 w temp
          (chunks.map (fun d => PutEvent.msg (PutMsg.contents d)) ++ evs) i acc fs
        = putLoop md5 w temp evs (i + chunks.length) (acc ++ chunks.flatten)
            (chunks.foldl (fun f d => f.appendFile temp d) fs) := by
  intro chunks
  induction chunks with
  | nil => intro evs i acc fs; simp
  | cons d ds ih =>
    intro evs i acc fs
    simp only [List.map_cons, List.cons_append, putLoop]
    rw [if_neg (by rw [hw i]; exact Bool.false_ne_true)]
    simp only [List.append_eq]
    rw [ih evs (i + 1) (acc ++ d) (fs.appendFile temp d)]
    simp only [List.length_cons, List.flatten_cons, List.foldl_cons]
    rw [show i + 1 + ds.length = i + (ds.length + 1) by omega,
      List.append_assoc]

/-- C6: when a `Put` stream sends `Open`, then content chunks, then a
`Hash` whose digest differs from the digest of the received bytes (and
the open/writes themselves succeed on a fresh destination), `HandlePut`
fails with the data-corruption code `DataLoss` — not internal, not
success — and the destination path is absent afterwards, as is the temp
file. -/
theorem put_hash_mismatch_dataloss (md5 : Bytes → Bytes) (env : PutEnv) (fs : FS)
    (rf : Str) (perms : Nat) (chunks : List Bytes) (d : Bytes) (tail : List PutEvent)
    (henv : env.events = PutEvent.msg (PutMsg.open rf perms) ::
        (chunks.map (fun c => PutEvent.msg (PutMsg.contents c))
          ++ PutEvent.msg (PutMsg.hash d) :: tail))
    (hrf : rf ≠ []) (hv : validatePath rf = none)
    (hopen : env.openFileFails = false)
    (hw : env.writeFails = fun _ => false)
    (hmm : md5 chunks.flatten ≠ d)
    (hfresh : fs.lookup (translatePathForContainer fs rf) = none) :
    (HandlePut md5 env fs).1 = some PutErr.hashMismatch
    ∧ PutErr.code PutErr.hashMismatch = Code.dataLoss
    ∧ Code.dataLoss ≠ Code.internal
    ∧ (HandlePut md5 env fs).2.lookup (translatePathForContainer fs rf) = none
    ∧ (HandlePut md5 env fs).2.lookup
        (tempPathOf (translatePathForContainer fs rf)) = none := by
  have hwj : ∀ j, env.writeFails j = false := fun j => by rw [hw]
  set dest := translatePathForContainer fs rf with hdest
  set temp := tempPathOf dest with htemp
  have hdt : dest ≠ temp := fun h => tempPathOf_ne dest h.symm
  have hrun : HandlePut md5 env fs
      = (some PutErr.hashMismatch,
          cleanupTemp
            (chunks.foldl (fun f c => f.appendFile temp c) (fs.setFile temp [])) temp) := by
    simp only [HandlePut, henv]
    rw [if_neg hrf]
    simp only [hv]
    rw [if_neg (by rw [hopen]; exact Bool.false_ne_true)]
    rw [← hdest, ← htemp]
    rw [putLoop_chunks md5 env.writeFails temp hwj chunks _ 0 [] (fs.setFile temp [])]
    simp only [putLoop, List.nil_append]
    rw [if_neg hmm]
  rw [hrun]
  refine ⟨rfl, rfl, by decide, ?_, ?_⟩
  · rw [lookup_cleanupTemp_ne _ temp dest hdt,
      foldl_appendFile_lookup_ne temp dest hdt,
      lookup_setFile_ne fs temp dest [] hdt]
    exact hfresh
  · exact lookup_cleanupTemp_self _ temp

/-- Witness for C6: a concrete mismatching upload (bytes `[2]`, claimed
digest `[9]`) fails with `DataLoss` and leaves no destination. -/
theorem put_hash_mismatch_dataloss_witness :
    ((putEnvOf [PutEvent.msg (PutMsg.open "/tmp/w6".toList 0),
        PutEvent.msg (PutMsg.contents [2]), PutEvent.msg (PutMsg.hash [9])]).events
      = PutEvent.msg (PutMsg.open "/tmp/w6".toList 0) ::
          (([[2]] : List Bytes).map (fun c => PutEvent.msg (PutMsg.contents c))
            ++ PutEvent.msg (PutMsg.hash [9]) :: []))
    ∧ "/tmp/w6".toList ≠ []
    ∧ validatePath "/tmp/w6".toList = none
    ∧ (putEnvOf [PutEvent.msg (PutMsg.open "/tmp/w6".toList 0),
        PutEvent.msg (PutMsg.contents [2]), PutEvent.msg (PutMsg.hash [9])]).openFileFails = false
    ∧ (putEnvOf [PutEvent.msg (PutMsg.open "/tmp/w6".toList 0),
        PutEvent.msg (PutMsg.contents [2]), PutEvent.msg (PutMsg.hash [9])]).writeFails
        = (fun _ => false)
    ∧ idDigest ([[2]] : List Bytes).flatten ≠ [9]
    ∧ fsEmpty.lookup (translatePathForContainer fsEmpty "/tmp/w6".toList) = none
    ∧ ((HandlePut idDigest (putEnvOf [PutEvent.msg (PutMsg.open "/tmp/w6".toList 0),
          PutEvent.msg (PutMsg.contents [2]), PutEvent.msg (PutMsg.hash [9])]) fsEmpty).1
        = some PutErr.hashMismatch
      ∧ PutErr.code PutErr.hashMismatch = Code.dataLoss
      ∧ Code.dataLoss ≠ Code.internal
      ∧ (HandlePut idDigest (putEnvOf [PutEvent.msg (PutMsg.open "/tmp/w6".toList 0),
          PutEvent.msg (PutMsg.contents [2]), PutEvent.msg (PutMsg.hash [9])]) fsEmpty).2.lookup
          (translatePathForContainer fsEmpty "/tmp/w6".toList) = none
      ∧ (HandlePut idDigest (putEnvOf [PutEvent.msg (PutMsg.open "/tmp/w6".toList 0),
          PutEvent.msg (PutMsg.contents [2]), PutEvent.msg (PutMsg.hash [9])]) fsEmpty).2.lookup
          (tempPathOf (translatePathForContainer fsEmpty "/tmp/w6".toList)) = none) :=
  ⟨rfl, by decide, by decide, rfl, rfl, by decide, rfl,
    put_hash_mismatch_dataloss idDigest _ fsEmpty "/tmp/w6".toList 0 [[2]] [9] []
      rfl (by decide) (by decide) rfl rfl (by decide) rfl⟩

/-- C7: when a `Put` stream reaches end-of-input (io.EOF) after `Open`
and zero or more content chunks but before any `Hash` message,
`HandlePut` fails with the protocol error `unexpected end of stream`
(invalid-argument class), and the destination is not created. -/
theorem put_eof_before_hash (md5 : Bytes → Bytes) (env : PutEnv) (fs : FS)
    (rf : Str) (perms : Nat) (chunks : List Bytes)
    (henv : env.events = PutEvent.msg (PutMsg.open rf perms) ::
        (chunks.map (fun c => PutEvent.msg (PutMsg.contents c))
          ++ [PutEvent.err RecvErr.eof]))
    (hrf : rf ≠ []) (hv : validatePath rf = none)
    (hopen : env.openFileFails = false)
    (hw : env.writeFails = fun _ => false)
    (hfresh : fs.lookup (translatePathForContainer fs rf) = none) :
    (HandlePut md5 env fs).1 = some PutErr.unexpectedEof
    ∧ PutErr.code PutErr.unexpectedEof = Code.invalidArgument
    ∧ (HandlePut md5 env fs).2.lookup (translatePathForContainer fs rf) = none
    ∧ (HandlePut md5 env fs).2.lookup
        (tempPathOf (translatePathForContainer fs rf)) = none := by
  have hwj : ∀ j, env.writeFails j = false := fun j => by rw [hw]
  set dest := translatePathForContainer fs rf with hdest
  set temp := tempPathOf dest with htemp
  have hdt : dest ≠ temp := fun h => tempPathOf_ne dest h.symm
  have hrun : HandlePut md5 env fs
      = (some PutErr.unexpectedEof,
          cleanupTemp
            (chunks.foldl (fun f c => f.appendFile temp c) (fs.setFile temp [])) temp) := by
    simp only [HandlePut, henv]
    rw [if_neg hrf]
    simp only [hv]
    rw [if_neg (by rw [hopen]; exact Bool.false_ne_true)]
    rw [← hdest, ← htemp]
    rw [putLoop_chunks md5 env.writeFails temp hwj chunks _ 0 [] (fs.setFile temp [])]
    simp only [putLoop]
  rw [hrun]
  refine ⟨rfl, rfl, ?_, ?_⟩
  · rw [lookup_cleanupTemp_ne _ temp dest hdt,
      foldl_appendFile_lookup_ne temp dest hdt,
      lookup_setFile_ne fs temp dest [] hdt]
    exact hfresh
  · exact lookup_cleanupTemp_self _ temp

/-- Witness for C7: a concrete upload of `[3]` truncated by EOF before
any hash fails with the invalid-argument protocol error and leaves no
destination. -/
theorem put_eof_before_hash_witness :
    ((putEnvOf [PutEvent.msg (PutMsg.open "/tmp/w7".toList 0),
        PutEvent.msg (PutMsg.contents [3]), PutEvent.err RecvErr.eof]).events
      = PutEvent.msg (PutMsg.open "/tmp/w7".toList 0) ::
          (([[3]] : List Bytes).map (fun c => PutEvent.msg (PutMsg.contents c))
            ++ [PutEvent.err RecvErr.eof]))
    ∧ "/tmp/w7".toList ≠ []
    ∧ validatePath "/tmp/w7".toList = none
    ∧ (putEnvOf [PutEvent.msg (PutMsg.open "/tmp/w7".toList 0),
        PutEvent.msg (PutMsg.contents [3]), PutEvent.err RecvErr.eof]).openFileFails = false
    ∧ (putEnvOf [PutEvent.msg (PutMsg.open "/tmp/w7".toList 0),
        PutEvent.msg (PutMsg.contents [3]), PutEvent.err RecvErr.eof]).writeFails
        = (fun _ => false)
    ∧ fsEmpty.lookup (translatePathForContainer fsEmpty "/tmp/w7".toList) = none
    ∧ ((HandlePut idDigest (putEnvOf [PutEvent.msg (PutMsg.open "/tmp/w7".toList 0),
          PutEvent.msg (PutMsg.contents [3]), PutEvent.err RecvErr.eof]) fsEmpty).1
        = some PutErr.unexpectedEof
      ∧ PutErr.code PutErr.unexpectedEof = Code.invalidArgument
      ∧ (HandlePut idDigest (putEnvOf [PutEvent.msg (PutMsg.open "/tmp/w7".toList 0),
          PutEvent.msg (PutMsg.contents [3]), PutEvent.err RecvErr.eof]) fsEmpty).2.lookup
          (translatePathForContainer fsEmpty "/tmp/w7".toList) = none
      ∧ (HandlePut idDigest (putEnvOf [PutEvent.msg (PutMsg.open "/tmp/w7".toList 0),
          PutEvent.msg (PutMsg.contents [3]), PutEvent.err RecvErr.eof]) fsEmpty).2.lookup
          (tempPathOf (translatePathForContainer fsEmpty "/tmp/w7".toList)) = none) :=
  ⟨rfl, by decide, by decide, rfl, rfl, rfl,
    put_eof_before_hash idDigest _ fsEmpty "/tmp/w7".toList 0 [[3]]
      rfl (by decide) (by decide) rfl rfl rfl⟩

theorem contentBytes_append (a b : List PutMsg) :
    contentBytes (a ++ b) = contentBytes a ++ contentBytes b := by
  induction a with
  | nil => rfl
  | cons m rest ih => cases m <;> simp [contentBytes, ih]

theorem hashMsgs_append (a b : List PutMsg) :
    hashMsgs (a ++ b) = hashMsgs a ++ hashMsgs b := by
  induction a with
  | nil => rfl
  | cons m rest ih => cases m <;> simp [hashMsgs, ih]

theorem contentBytes_sentChunks (bs : List Bytes) :
    contentBytes (sentChunks bs) = bs.flatten := by
  induction bs with
  | nil => rfl
  | cons b rest ih =>
    by_cases hb : b.isEmpty
    · have hbe : b = [] := List.isEmpty_iff.mp hb
      simp [sentChunks, hb, hbe] at ih ⊢
      simpa [sentChunks] using ih
    · simp [sentChunks, hb, contentBytes] at ih ⊢
      simpa [sentChunks] using ih

theorem hashMsgs_sentChunks (bs : List Bytes) :
    hashMsgs (sentChunks bs) = [] := by
  induction bs with
  | nil => rfl
  | cons b rest ih =>
    by_cases hb : b.isEmpty
    · simp [sentChunks, hb] at ih ⊢
      simpa [sentChunks] using ih
    · simp [sentChunks, hb, hashMsgs] at ih ⊢
      simpa [sentChunks] using ih

theorem dpuLoop_success (env : DpuEnv)
    (hd : env.ctxDone = fun _ => false) (hs : env.sendContentErrAt = fun _ => false) :
    ∀ (reads : List (Bytes × ReadRes)) (i : Nat) (acc : Bytes) (tr : List PutMsg),
      readsEndWithEof reads = true →
      dpuLoop env reads i acc tr
        = (none, acc ++ (reads.map Prod.fst).flatten,
            tr ++ sentChunks (reads.map Prod.fst)) := by
  intro reads
  induction reads with
  | nil => intro i acc tr h; exact absurd h (by simp [readsEndWithEof])
  | cons rr rest ih =>
    obtain ⟨data, res⟩ := rr
    intro i acc tr h
    have hdi : env.ctxDone i = false := by rw [hd]
    have hsi : env.sendContentErrAt i = false := by rw [hs]
    cases res with
    | ok =>
      have hrest : readsEndWithEof rest = true := h
      simp only [dpuLoop, hdi, Bool.false_eq_true, if_false]
      by_cases hdata : data = []
      · rw [if_pos hdata]
        rw [ih (i + 1) (acc ++ data) tr hrest]
        simp [hdata, sentChunks]
      · rw [if_neg hdata]
        rw [if_neg (by rw [hsi]; exact Bool.false_ne_true)]
        rw [ih (i + 1) (acc ++ data) (tr ++ [PutMsg.contents data]) hrest]
        have hne : data.isEmpty = false := by
          cases data with
          | nil => exact absurd rfl hdata
          | cons x xs => rfl
        simp [sentChunks, hne, List.append_assoc]
    | eof =>
      cases rest with
      | nil =>
        simp only [dpuLoop, hdi, Bool.false_eq_true, if_false]
        by_cases hdata : data = []
        · rw [if_pos hdata]
          simp [hdata, sentChunks]
        · rw [if_neg hdata]
          rw [if_neg (by rw [hsi]; exact Bool.false_ne_true)]
          have hne : data.isEmpty = false := by
            cases data with
            | nil => exact absurd rfl hdata
            | cons x xs => rfl
          simp [sentChunks, hne]
      | cons y ys => exact absurd h (by simp [readsEndWithEof])
    | err => exact absurd h (by simp [readsEndWithEof])

/-- C2: for a well-formed source stream and a failure-free environment,
the DPU streaming proxy forwards exactly the source bytes — the
concatenation of the sent `Contents` chunks equals the concatenation of
the bytes read — stages nothing on the local filesystem, and both the
final `Hash` message and the returned response carry the digest of
exactly those bytes, which depends only on their concatenation (hence
not on the chunking). -/
theorem dpu_streaming_exact (md5 : Bytes → Bytes) (env : DpuEnv)
    (lp url dpuIndex : Str) (fs : FS)
    (hidx : dpuIndex ≠ []) (hlp : lp ≠ []) (hurl : url ≠ [])
    (hhttp : env.httpStreamErr = false) (hconn : env.getConnErr = none)
    (hput : env.putClientErr = false) (hopen : env.sendOpenErr = false)
    (hhash : env.sendHashErr = false) (hclose : env.closeAndRecvErr = false)
    (hdone : env.ctxDone = fun _ => false)
    (hsend : env.sendContentErrAt = fun _ => false)
    (hreads : readsEndWithEof env.reads = true) :
    (HandleTransferToRemoteForDPUStreaming md5 env
        (some ⟨lp, some ⟨Protocol.http, url⟩⟩) dpuIndex fs).1.1
      = some (md5 (env.reads.map Prod.fst).flatten)
    ∧ (HandleTransferToRemoteForDPUStreaming md5 env
        (some ⟨lp, some ⟨Protocol.http, url⟩⟩) dpuIndex fs).1.2 = none
    ∧ contentBytes (HandleTransferToRemoteForDPUStreaming md5 env
        (some ⟨lp, some ⟨Protocol.http, url⟩⟩) dpuIndex fs).2.1
      = (env.reads.map Prod.fst).flatten
    ∧ hashMsgs (HandleTransferToRemoteForDPUStreaming md5 env
        (some ⟨lp, some ⟨Protocol.http, url⟩⟩) dpuIndex fs).2.1
      = [md5 (env.reads.map Prod.fst).flatten]
    ∧ (HandleTransferToRemoteForDPUStreaming md5 env
        (some ⟨lp, some ⟨Protocol.http, url⟩⟩) dpuIndex fs).2.2 = fs := by
  have hrun : HandleTransferToRemoteForDPUStreaming md5 env
      (some ⟨lp, some ⟨Protocol.http, url⟩⟩) dpuIndex fs
      = ((some (md5 (env.reads.map Prod.fst).flatten), none),
          ([PutMsg.open lp 0o644] ++ sentChunks (env.reads.map Prod.fst))
            ++ [PutMsg.hash (md5 (env.reads.map Prod.fst).flatten)], fs) := by
    simp only [HandleTransferToRemoteForDPUStreaming]
    rw [if_neg hidx, if_neg hlp]
    rw [if_neg (show ¬ Protocol.http ≠ Protocol.http from fun h => h rfl)]
    rw [if_neg hurl]
    rw [if_neg (by rw [hhttp]; exact Bool.false_ne_true)]
    simp only [hconn]
    rw [if_neg (by rw [hput]; exact Bool.false_ne_true)]
    rw [if_neg (by rw [hopen]; exact Bool.false_ne_true)]
    rw [dpuLoop_success env hdone hsend env.reads 0 [] [PutMsg.open lp 0o644] hreads]
    simp only [List.nil_append]
    rw [if_neg (by rw [hhash]; exact Bool.false_ne_true)]
    rw [if_neg (by rw [hclose]; exact Bool.false_ne_true)]
  rw [hrun]
  refine ⟨rfl, rfl, ?_, ?_, rfl⟩
  · rw [contentBytes_append, contentBytes_append, contentBytes_sentChunks]
    simp [contentBytes]
  · rw [hashMsgs_append, hashMsgs_append, hashMsgs_sentChunks]
    simp [hashMsgs]

/-- Witness for C2: a concrete two-chunk stream `[1,2]`, `[3]` with an
interleaved empty read, under the identity digest. -/
theorem dpu_streaming_exact_witness :
    ("1".toList ≠ [] ∧ "/tmp/w2".toList ≠ [] ∧ "http://s/f".toList ≠ [])
    ∧ ((dpuEnvOf [([1, 2], ReadRes.ok), ([], ReadRes.ok), ([3], ReadRes.eof)]).httpStreamErr = false
      ∧ (dpuEnvOf [([1, 2], ReadRes.ok), ([], ReadRes.ok), ([3], ReadRes.eof)]).getConnErr = none
      ∧ (dpuEnvOf [([1, 2], ReadRes.ok), ([], ReadRes.ok), ([3], ReadRes.eof)]).putClientErr = false
      ∧ (dpuEnvOf [([1, 2], ReadRes.ok), ([], ReadRes.ok), ([3], ReadRes.eof)]).sendOpenErr = false
      ∧ (dpuEnvOf [([1, 2], ReadRes.ok), ([], ReadRes.ok), ([3], ReadRes.eof)]).sendHashErr = false
      ∧ (dpuEnvOf [([1, 2], ReadRes.ok), ([], ReadRes.ok), ([3], ReadRes.eof)]).closeAndRecvErr = false
      ∧ (dpuEnvOf [([1, 2], ReadRes.ok), ([], ReadRes.ok), ([3], ReadRes.eof)]).ctxDone = (fun _ => false)
      ∧ (dpuEnvOf [([1, 2], ReadRes.ok), ([], ReadRes.ok), ([3], ReadRes.eof)]).sendContentErrAt = (fun _ => false)
      ∧ readsEndWithEof (dpuEnvOf [([1, 2], ReadRes.ok), ([], ReadRes.ok), ([3], ReadRes.eof)]).reads = true)
    ∧ ((HandleTransferToRemoteForDPUStreaming idDigest
          (dpuEnvOf [([1, 2], ReadRes.ok), ([], ReadRes.ok), ([3], ReadRes.eof)])
          (some ⟨"/tmp/w2".toList, some ⟨Protocol.http, "http://s/f".toList⟩⟩)
          "1".toList fsEmpty).1.1
        = some (idDigest ((dpuEnvOf [([1, 2], ReadRes.ok), ([], ReadRes.ok), ([3], ReadRes.eof)]).reads.map Prod.fst).flatten)
      ∧ (HandleTransferToRemoteForDPUStreaming idDigest
          (dpuEnvOf [([1, 2], ReadRes.ok), ([], ReadRes.ok), ([3], ReadRes.eof)])
          (some ⟨"/tmp/w2".toList, some ⟨Protocol.http, "http://s/f".toList⟩⟩)
          "1".toList fsEmpty).1.2 = none
      ∧ contentBytes (HandleTransferToRemoteForDPUStreaming idDigest
          (dpuEnvOf [([1, 2], ReadRes.ok), ([], ReadRes.ok), ([3], ReadRes.eof)])
          (some ⟨"/tmp/w2".toList, some ⟨Protocol.http, "http://s/f".toList⟩⟩)
          "1".toList fsEmpty).2.1
        = ((dpuEnvOf [([1, 2], ReadRes.ok), ([], ReadRes.ok), ([3], ReadRes.eof)]).reads.map Prod.fst).flatten
      ∧ hashMsgs (HandleTransferToRemoteForDPUStreaming idDigest
          (dpuEnvOf [([1, 2], ReadRes.ok), ([], ReadRes.ok), ([3], ReadRes.eof)])
          (some ⟨"/tmp/w2".toList, some ⟨Protocol.http, "http://s/f".toList⟩⟩)
          "1".toList fsEmpty).2.1
        = [idDigest ((dpuEnvOf [([1, 2], ReadRes.ok), ([], ReadRes.ok), ([3], ReadRes.eof)]).reads.map Prod.fst).flatten]
      ∧ (HandleTransferToRemoteForDPUStreaming idDigest
          (dpuEnvOf [([1, 2], ReadRes.ok), ([], ReadRes.ok), ([3], ReadRes.eof)])
          (some ⟨"/tmp/w2".toList, some ⟨Protocol.http, "http://s/f".toList⟩⟩)
          "1".toList fsEmpty).2.2 = fsEmpty) :=
  ⟨⟨by decide, by decide, by decide⟩,
    ⟨rfl, rfl, rfl, rfl, rfl, rfl, rfl, rfl, rfl⟩,
    dpu_streaming_exact idDigest
      (dpuEnvOf [([1, 2], ReadRes.ok), ([], ReadRes.ok), ([3], ReadRes.eof)])
      "/tmp/w2".toList "http://s/f".toList "1".toList fsEmpty
      (by decide) (by decide) (by decide) rfl rfl rfl rfl rfl rfl rfl rfl rfl⟩

/-- C5 (amended): every endpoint-resolution failure of the DPU
connection — including the case where resolution reports the peer
unreachable — is surfaced by `HandleTransferToRemoteForDPUStreaming` at
its own dedicated return site (`dpuConnFailed`, message "failed to get
DPU connection", distinct from the other failure sites), but with the
internal class, not the availability class. -/
theorem dpu_conn_failure_internal (md5 : Bytes → Bytes) (env : DpuEnv)
    (lp url dpuIndex : Str) (fs : FS) (e : DpuConnErr)
    (hidx : dpuIndex ≠ []) (hlp : lp ≠ []) (hurl : url ≠ [])
    (hhttp : env.httpStreamErr = false) (hconn : env.getConnErr = some e) :
    (HandleTransferToRemoteForDPUStreaming md5 env
        (some ⟨lp, some ⟨Protocol.http, url⟩⟩) dpuIndex fs).1
      = (none, some (DpuErr.dpuConnFailed e))
    ∧ DpuErr.code (DpuErr.dpuConnFailed e) = Code.internal
    ∧ DpuErr.code (DpuErr.dpuConnFailed e) ≠ Code.unavailable
    ∧ DpuErr.dpuConnFailed e ≠ DpuErr.httpStreamFailed
    ∧ DpuErr.dpuConnFailed e ≠ DpuErr.putClientFailed
    ∧ DpuErr.dpuConnFailed e ≠ DpuErr.sendOpenFailed
    ∧ DpuErr.dpuConnFailed e ≠ DpuErr.sendContentFailed
    ∧ DpuErr.dpuConnFailed e ≠ DpuErr.readFailed
    ∧ DpuErr.dpuConnFailed e ≠ DpuErr.closeRecvFailed := by
  refine ⟨?_, rfl, fun h => Code.noConfusion h, by simp, by simp, by simp,
    by simp, by simp, by simp⟩
  simp only [HandleTransferToRemoteForDPUStreaming]
  rw [if_neg hidx, if_neg hlp]
  rw [if_neg (show ¬ Protocol.http ≠ Protocol.http from fun h => h rfl)]
  rw [if_neg hurl]
  rw [if_neg (by rw [hhttp]; exact Bool.false_ne_true)]
  simp only [hconn]

/-- Witness for C5's amended theorem at the unreachable resolution
failure. -/
theorem dpu_conn_failure_internal_witness :
    ("1".toList ≠ [] ∧ "/tmp/w5".toList ≠ [] ∧ "http://s/f".toList ≠ [])
    ∧ ({ dpuEnvOf [] with getConnErr := some DpuConnErr.unreachable }.httpStreamErr = false
      ∧ { dpuEnvOf [] with getConnErr := some DpuConnErr.unreachable }.getConnErr
          = some DpuConnErr.unreachable)
    ∧ ((HandleTransferToRemoteForDPUStreaming idDigest
          { dpuEnvOf [] with getConnErr := some DpuConnErr.unreachable }
          (some ⟨"/tmp/w5".toList, some ⟨Protocol.http, "http://s/f".toList⟩⟩)
          "1".toList fsEmpty).1
        = (none, some (DpuErr.dpuConnFailed DpuConnErr.unreachable))
      ∧ DpuErr.code (DpuErr.dpuConnFailed DpuConnErr.unreachable) = Code.internal
      ∧ DpuErr.code (DpuErr.dpuConnFailed DpuConnErr.unreachable) ≠ Code.unavailable
      ∧ DpuErr.dpuConnFailed DpuConnErr.unreachable ≠ DpuErr.httpStreamFailed
      ∧ DpuErr.dpuConnFailed DpuConnErr.unreachable ≠ DpuErr.putClientFailed
      ∧ DpuErr.dpuConnFailed DpuConnErr.unreachable ≠ DpuErr.sendOpenFailed
      ∧ DpuErr.dpuConnFailed DpuConnErr.unreachable ≠ DpuErr.sendContentFailed
      ∧ DpuErr.dpuConnFailed DpuConnErr.unreachable ≠ DpuErr.readFailed
      ∧ DpuErr.dpuConnFailed DpuConnErr.unreachable ≠ DpuErr.closeRecvFailed) :=
  ⟨⟨by decide, by decide, by decide⟩, ⟨rfl, rfl⟩,
    dpu_conn_failure_internal idDigest
      { dpuEnvOf [] with getConnErr := some DpuConnErr.unreachable }
      "/tmp/w5".toList "http://s/f".toList "1".toList fsEmpty DpuConnErr.unreachable
      (by decide) (by decide) (by decide) rfl rfl⟩

/-- Counterexample for C5 as frozen: when endpoint resolution reports
the peer unreachable, the streaming handler surfaces the failure with
the internal class — not an availability-class error. -/
theorem dpu_unreachable_not_unavailable :
    (HandleTransferToRemoteForDPUStreaming idDigest
        { dpuEnvOf [] with getConnErr := some DpuConnErr.unreachable }
        (some ⟨"/tmp/c5".toList, some ⟨Protocol.http, "http://s/f".toList⟩⟩)
        "1".toList fsEmpty).1.2
      = some (DpuErr.dpuConnFailed DpuConnErr.unreachable)
    ∧ DpuErr.code (DpuErr.dpuConnFailed DpuConnErr.unreachable) = Code.internal
    ∧ Code.internal ≠ Code.unavailable := by
  decide

/-- C4 (amended): `HandleTransferToRemote` routes to the DPU streaming
path exactly when the metadata carries target-type `dpu` and a
non-empty target-index, and otherwise runs the local handler; `HandlePut`
reads the same metadata but only logs it — its behaviour is identical
for every metadata value, i.e. the Put request is always handled
locally. -/
theorem transfer_routing_and_put_local (md5 : Bytes → Bytes) (denv : DpuEnv)
    (lenv : LocalEnv) (req : Option TransferReq) (fs : FS) :
    (∀ md : Option MDPairs,
      (∃ resp err tr, (HandleTransferToRemote md5 denv lenv md req fs).1
          = TransferOut.viaDpu resp err tr)
        ↔ ∃ m, md = some m ∧ mdFirst m.targetTypeVals = "dpu".toList
            ∧ mdFirst m.targetIndexVals ≠ [])
    ∧ (∀ (env : PutEnv) (md1 md2 : Option MDPairs),
        HandlePut md5 { env with metadata := md1 } fs
          = HandlePut md5 { env with metadata := md2 } fs) := by
  constructor
  · intro md
    cases md with
    | none =>
      simp only [HandleTransferToRemote]
      constructor
      · rintro ⟨resp, err, tr, h⟩
        exact absurd h (by simp)
      · rintro ⟨m, hm, _⟩
        exact absurd hm (by simp)
    | some m =>
      simp only [HandleTransferToRemote]
      by_cases hc : mdFirst m.targetTypeVals = "dpu".toList ∧ mdFirst m.targetIndexVals ≠ []
      · rw [if_pos hc]
        constructor
        · intro _
          exact ⟨m, rfl, hc.1, hc.2⟩
        · intro _
          exact ⟨_, _, _, rfl⟩
      · rw [if_neg hc]
        constructor
        · rintro ⟨resp, err, tr, h⟩
          exact absurd h (by simp)
        · rintro ⟨m2, hm2, h1, h2⟩
          have : m2 = m := by injection hm2.symm
          subst this
          exact absurd ⟨h1, h2⟩ hc
  · intro env md1 md2
    cases env
    simp [HandlePut]

/-- Counterexample for C4 as frozen: a `Put` call whose metadata carries
target-type `dpu` and a non-empty target-index is still handled by the
local receive path — the destination file is created on the local
filesystem and the call succeeds locally, instead of being routed
through the connection cache and streaming proxy. -/
theorem put_dpu_metadata_handled_locally :
    (HandlePut idDigest
        { putEnvOf wEvsC1 with metadata := some ⟨["dpu".toList], ["1".toList]⟩ }
        fsEmpty).1 = none
    ∧ (HandlePut idDigest
        { putEnvOf wEvsC1 with metadata := some ⟨["dpu".toList], ["1".toList]⟩ }
        fsEmpty).2.lookup "/tmp/w1".toList = some [1]
    ∧ mdFirst ((⟨["dpu".toList], ["1".toList]⟩ : MDPairs).targetTypeVals) = "dpu".toList
    ∧ mdFirst ((⟨["dpu".toList], ["1".toList]⟩ : MDPairs).targetIndexVals) ≠ [] := by
  decide

/-- C8: for every non-empty target path that fails the allow-list
validation, the local transfer handler fails with the invalid-argument
class, the remove handler fails with the permission-denied class, and
neither touches the filesystem. -/
theorem invalid_path_transfer_vs_remove (md5 : Bytes → Bytes) (lenv : LocalEnv)
    (renv : RemoveEnv) (p : Str) (rd : RemoteDownload) (fs : FS) (e : PathError)
    (hne : p ≠ []) (hv : validatePath p = some e) :
    handleTransferToRemoteLocal md5 lenv (some ⟨p, some rd⟩) fs
        = ((none, some (LocalErr.invalidLocalPath e)), fs)
    ∧ LocalErr.code (LocalErr.invalidLocalPath e) = Code.invalidArgument
    ∧ HandleFileRemove renv (some ⟨p⟩) fs = ((none, some RemoveErr.pathDenied), fs)
    ∧ RemoveErr.code RemoveErr.pathDenied = Code.permissionDenied := by
  refine ⟨?_, rfl, ?_, rfl⟩
  · simp only [handleTransferToRemoteLocal]
    rw [if_neg hne]
    simp only [hv]
  · simp only [HandleFileRemove]
    rw [if_neg hne]
    simp only [hv]

/-- Witness for C8 at the Scenario-C path `/etc/passwd`. -/
theorem invalid_path_transfer_vs_remove_witness :
    ("/etc/passwd".toList ≠ [] ∧ validatePath "/etc/passwd".toList = some PathError.notAllowed)
    ∧ (handleTransferToRemoteLocal idDigest ⟨false, [], false⟩
          (some ⟨"/etc/passwd".toList, some ⟨Protocol.http, "http://s/f".toList⟩⟩) fsEmpty
        = ((none, some (LocalErr.invalidLocalPath PathError.notAllowed)), fsEmpty)
      ∧ LocalErr.code (LocalErr.invalidLocalPath PathError.notAllowed) = Code.invalidArgument
      ∧ HandleFileRemove ⟨none⟩ (some ⟨"/etc/passwd".toList⟩) fsEmpty
          = ((none, some RemoveErr.pathDenied), fsEmpty)
      ∧ RemoveErr.code RemoveErr.pathDenied = Code.permissionDenied) :=
  ⟨⟨by decide, by decide⟩,
    invalid_path_transfer_vs_remove idDigest ⟨false, [], false⟩ ⟨none⟩
      "/etc/passwd".toList ⟨Protocol.http, "http://s/f".toList⟩ fsEmpty
      PathError.notAllowed (by decide) (by decide)⟩

/-- C10: when the filesystem delete inside `HandleFileRemove` fails, the
handler returns a non-nil (empty) response together with a non-nil error
classified not-found, permission-denied, or internal; by contrast both
transfer handlers return a nil response whenever they return an
error. -/
theorem remove_failure_nonnil_response (renv : RemoveEnv) (p : Str) (fs : FS)
    (hne : p ≠ []) (hv : validatePath p = none)
    (hfail : fs.lookup (translatePathForContainer fs p) = none ∨ renv.removeFails ≠ none) :
    (∃ er : RemoveErr, (HandleFileRemove renv (some ⟨p⟩) fs).1 = (some (), some er)
      ∧ (er.code = Code.notFound ∨ er.code = Code.permissionDenied
          ∨ er.code = Code.internal))
    ∧ (∀ (md5 : Bytes → Bytes) (lenv : LocalEnv) (req : Option TransferReq) (fs2 : FS)
          (e2 : LocalErr),
        (handleTransferToRemoteLocal md5 lenv req fs2).1.2 = some e2 →
        (handleTransferToRemoteLocal md5 lenv req fs2).1.1 = none)
    ∧ (∀ (md5 : Bytes → Bytes) (denv : DpuEnv) (req : Option TransferReq) (idx : Str)
          (fs2 : FS) (e2 : DpuErr),
        (HandleTransferToRemoteForDPUStreaming md5 denv req idx fs2).1.2 = some e2 →
        (HandleTransferToRemoteForDPUStreaming md5 denv req idx fs2).1.1 = none) := by
  refine ⟨?_, ?_, ?_⟩
  · simp only [HandleFileRemove]
    rw [if_neg hne]
    simp only [hv]
    cases hlook : fs.lookup (translatePathForContainer fs p) with
    | none => exact ⟨RemoveErr.removeNotFound, rfl, Or.inl rfl⟩
    | some v =>
      cases hrf : renv.removeFails with
      | none =>
        rcases hfail with h | h
        · rw [hlook] at h; exact absurd h (by simp)
        · exact absurd hrf h
      | some k =>
        cases k with
        | permission => exact ⟨RemoveErr.removePermission, rfl, Or.inr (Or.inl rfl)⟩
        | otherFailure => exact ⟨RemoveErr.removeInternal, rfl, Or.inr (Or.inr rfl)⟩
  · intro md5 lenv req fs2 e2 herr
    cases req with
    | none => rfl
    | some r =>
      simp only [handleTransferToRemoteLocal] at herr ⊢
      cases hrd : r.remoteDownload with
      | none => simp [hrd]
      | some rd =>
        simp only [hrd] at herr ⊢
        by_cases h1 : r.localPath = []
        · simp [h1]
        · simp only [if_neg h1] at herr ⊢
          cases hv2 : validatePath r.localPath with
          | some e => simp [hv2]
          | none =>
            simp only [hv2] at herr ⊢
            by_cases h2 : rd.protocol ≠ Protocol.http
            · simp [h2]
            · simp only [if_neg h2] at herr ⊢
              by_cases h3 : rd.url = []
              · simp [h3]
              · simp only [if_neg h3] at herr ⊢
                by_cases h4 : lenv.downloadErr
                · simp [h4]
                · simp only [h4, Bool.false_eq_true, if_false] at herr ⊢
                  by_cases h5 : lenv.md5FileErr
                  · simp [h5]
                  · simp only [h5, Bool.false_eq_true, if_false] at herr
                    exact absurd herr (by simp)
  · intro md5 denv req idx fs2 e2 herr
    cases req with
    | none => rfl
    | some r =>
      simp only [HandleTransferToRemoteForDPUStreaming] at herr ⊢
      by_cases h0 : idx = []
      · simp [h0]
      · simp only [if_neg h0] at herr ⊢
        cases hrd : r.remoteDownload with
        | none => simp [hrd]
        | some rd =>
          simp only [hrd] at herr ⊢
          by_cases h1 : r.localPath = []
          · simp [h1]
          · simp only [if_neg h1] at herr ⊢
            by_cases h2 : rd.protocol ≠ Protocol.http
            · simp [h2]
            · simp only [if_neg h2] at herr ⊢
              by_cases h3 : rd.url = []
              · simp [h3]
              · simp only [if_neg h3] at herr ⊢
                by_cases h4 : denv.httpStreamErr
                · simp [h4]
                · simp only [h4, Bool.false_eq_true, if_false] at herr ⊢
                  cases hconn : denv.getConnErr with
                  | some e => simp [hconn]
                  | none =>
                    simp only [hconn] at herr ⊢
                    by_cases h5 : denv.putClientErr
                    · simp [h5]
                    · simp only [h5, Bool.false_eq_true, if_false] at herr ⊢
                      by_cases h6 : denv.sendOpenErr
                      · simp [h6]
                      · simp only [h6, Bool.false_eq_true, if_false] at herr ⊢
                        cases hdl : dpuLoop denv denv.reads 0 []
                            [PutMsg.open r.localPath 0o644] with
                        | mk r1 rest =>
                          obtain ⟨acc, tr⟩ := rest
                          cases r1 with
                          | some e =>
                            simp only [hdl] at herr ⊢
                          | none =>
                            simp only [hdl] at herr ⊢
                            by_cases h7 : denv.sendHashErr
                            · simp [h7]
                            · simp only [h7, Bool.false_eq_true, if_false] at herr ⊢
                              by_cases h8 : denv.closeAndRecvErr
                              · simp [h8]
                              · simp only [h8, Bool.false_eq_true, if_false] at herr
                                exact absurd herr (by simp)

/-- Witness for C10: deleting a file absent from the filesystem. -/
theorem remove_failure_nonnil_response_witness :
    ("/tmp/w10".toList ≠ [] ∧ validatePath "/tmp/w10".toList = none
      ∧ (fsEmpty.lookup (translatePathForContainer fsEmpty "/tmp/w10".toList) = none
        ∨ (⟨none⟩ : RemoveEnv).removeFails ≠ none))
    ∧ ((∃ er : RemoveErr, (HandleFileRemove ⟨none⟩ (some ⟨"/tmp/w10".toList⟩) fsEmpty).1
          = (some (), some er)
        ∧ (er.code = Code.notFound ∨ er.code = Code.permissionDenied
            ∨ er.code = Code.internal))
      ∧ (∀ (md5 : Bytes → Bytes) (lenv : LocalEnv) (req : Option TransferReq) (fs2 : FS)
            (e2 : LocalErr),
          (handleTransferToRemoteLocal md5 lenv req fs2).1.2 = some e2 →
          (handleTransferToRemoteLocal md5 lenv req fs2).1.1 = none)
      ∧ (∀ (md5 : Bytes → Bytes) (denv : DpuEnv) (req : Option TransferReq) (idx : Str)
            (fs2 : FS) (e2 : DpuErr),
          (HandleTransferToRemoteForDPUStreaming md5 denv req idx fs2).1.2 = some e2 →
          (HandleTransferToRemoteForDPUStreaming md5 denv req idx fs2).1.1 = none)) :=
  ⟨⟨by decide, by decide, Or.inl rfl⟩,
    remove_failure_nonnil_response ⟨none⟩ "/tmp/w10".toList fsEmpty
      (by decide) (by decide) (Or.inl rfl)⟩

theorem cleanStack_good (rooted : Bool) :
    ∀ (es st : List Str), (∀ e ∈ es, '/' ∉ e) → (∀ x ∈ st, x ≠ [] ∧ '/' ∉ x) →
      ∀ x ∈ cleanStack rooted es st, x ≠ [] ∧ '/' ∉ x := by
  intro es
  induction es with
  | nil => intro st _ hst x hx; exact hst x hx
  | cons e es ih =>
    intro st hes hst x hx
    have hes2 : ∀ e2 ∈ es, '/' ∉ e2 := fun e2 he2 => hes e2 (List.mem_cons_of_mem e he2)
    have heE : '/' ∉ e := hes e (List.mem_cons_self e es)
    have hgood : (['.', '.'] : Str) ≠ [] ∧ '/' ∉ (['.', '.'] : Str) := by decide
    by_cases h1 : e = [] ∨ e = ['.']
    · rw [show cleanStack rooted (e :: es) st = cleanStack rooted es st by
        simp [cleanStack, h1]] at hx
      exact ih st hes2 hst x hx
    · by_cases h2 : e = ['.', '.']
      · cases st with
        | nil =>
          by_cases hr : rooted = true
          · rw [show cleanStack rooted (e :: es) [] = cleanStack rooted es [] by
              simp [cleanStack, h1, h2, hr]] at hx
            exact ih [] hes2 (by simp) x hx
          · have hrf : rooted = false := by revert hr; cases rooted <;> simp
            rw [show cleanStack rooted (e :: es) [] = cleanStack rooted es [['.', '.']] by
              simp [cleanStack, h1, h2, hrf]] at hx
            refine ih [['.', '.']] hes2 ?_ x hx
            intro y hy
            simp only [List.mem_singleton] at hy
            rw [hy]
            exact hgood
        | cons top rest =>
          have hrest : ∀ y ∈ rest, y ≠ [] ∧ '/' ∉ y :=
            fun y hy => hst y (List.mem_cons_of_mem top hy)
          by_cases h3 : top = ['.', '.']
          · rw [show cleanStack rooted (e :: es) (top :: rest)
                = cleanStack rooted es (['.', '.'] :: top :: rest) by
              simp [cleanStack, h1, h2, h3]] at hx
            refine ih (['.', '.'] :: top :: rest) hes2 ?_ x hx
            intro y hy
            rcases List.mem_cons.mp hy with hy2 | hy2
            · rw [hy2]; exact hgood
            · exact hst y hy2
          · rw [show cleanStack rooted (e :: es) (top :: rest)
                = cleanStack rooted es rest by
              simp [cleanStack, h1, h2, h3]] at hx
            exact ih rest hes2 hrest x hx
      · rw [show cleanStack rooted (e :: es) st = cleanStack rooted es (e :: st) by
          simp [cleanStack, h1, h2]] at hx
        refine ih (e :: st) hes2 ?_ x hx
        intro y hy
        rcases List.mem_cons.mp hy with hy2 | hy2
        · rw [hy2]
          exact ⟨fun hnil => h1 (Or.inl hnil), heE⟩
        · exact hst y hy2

theorem goJoin_not_abs (parts : List Str)
    (h : ∀ x ∈ parts, x ≠ [] ∧ '/' ∉ x) : isAbs (goJoin '/' parts) = false := by
  cases parts with
  | nil => rfl
  | cons s rest =>
    obtain ⟨hne, hnm⟩ := h s (List.mem_cons_self s rest)
    cases s with
    | nil => exact absurd rfl hne
    | cons c cs =>
      have hc : c ≠ '/' := fun h2 => hnm (by simp [h2])
      cases rest with
      | nil => simp [goJoin, isAbs, goStartsWith, hc]
      | cons t ts => simp [goJoin, isAbs, goStartsWith, hc]

theorem filepathClean_eq (p : Str) (hp : p ≠ []) :
    filepathClean p
      = (if isAbs p then
          '/' :: goJoin '/' (cleanStack (isAbs p) (splitChar '/' p) []).reverse
        else if goJoin '/' (cleanStack (isAbs p) (splitChar '/' p) []).reverse = []
          then ['.']
        else goJoin '/' (cleanStack (isAbs p) (splitChar '/' p) []).reverse) := by
  simp [filepathClean, hp]

theorem isAbs_filepathClean (p : Str) : isAbs (filepathClean p) = isAbs p := by
  by_cases hp : p = []
  · subst hp; decide
  · rw [filepathClean_eq p hp]
    cases hr : isAbs p with
    | true =>
      rw [if_pos rfl]
      simp [isAbs, goStartsWith, goStartsWith_nil_right]
    | false =>
      rw [if_neg (by simp)]
      have hgood : ∀ x ∈ (cleanStack false (splitChar '/' p) []).reverse,
          x ≠ [] ∧ '/' ∉ x := by
        intro x hx
        exact cleanStack_good false (splitChar '/' p) []
          (fun e he => mem_splitChar_no_sep '/' p e he) (by simp) x
          (List.mem_reverse.mp hx)
      by_cases hb : goJoin '/' (cleanStack false (splitChar '/' p) []).reverse = []
      · rw [if_pos hb]
        decide
      · rw [if_neg hb]
        exact goJoin_not_abs _ hgood

theorem hasDotDotSegment_of_no_sub (p : Str)
    (h : goContains p "..".toList = false) : hasDotDotSegment p = false := by
  by_contra hcon
  rw [Bool.not_eq_false] at hcon
  obtain ⟨e, he, hee⟩ := List.any_eq_true.mp hcon
  have heq : e = "..".toList := by
    exact of_decide_eq_true hee
  rw [heq] at he
  have := mem_splitChar_contains '/' p "..".toList he
  rw [h] at this
  exact Bool.false_ne_true this

/-- C3 (amended): `validatePath` accepts exactly the paths that satisfy
the specification's acceptance predicate (absolute, no parent-traversal
segment after normalisation, normalised form under `/tmp/` or
`/var/tmp/`) *and* whose normalised form contains no `..` substring
anywhere — the code's substring test also rejects allow-listed paths
with `..` inside a file name. -/
theorem validatePath_none_iff (p : Str) :
    validatePath p = none
      ↔ (specAccepts p = true
          ∧ goContains (filepathClean p) "..".toList = false) := by
  simp only [validatePath, specAccepts]
  constructor
  · intro h
    by_cases h1 : isAbs (filepathClean p) = true
    · rw [if_neg (not_not_intro h1)] at h
      by_cases h2 : goContains (filepathClean p) "..".toList = true
      · rw [if_pos h2] at h
        exact absurd h (by simp)
      · have h2f : goContains (filepathClean p) "..".toList = false :=
          Bool.not_eq_true _ ▸ h2
        rw [if_neg h2] at h
        by_cases h3 : (goStartsWith (filepathClean p) "/tmp/".toList
            || goStartsWith (filepathClean p) "/var/tmp/".toList) = true
        · refine ⟨?_, h2f⟩
          rw [isAbs_filepathClean] at h1
          rw [h1, hasDotDotSegment_of_no_sub (filepathClean p) h2f, h3]
          rfl
        · rw [if_neg h3] at h
          exact absurd h (by simp)
    · rw [if_pos (by simp [h1])] at h
      exact absurd h (by simp)
  · rintro ⟨hacc, hcont⟩
    have habs : isAbs p = true := by
      by_contra hH
      rw [Bool.not_eq_true] at hH
      rw [hH] at hacc
      simp at hacc
    have hpre : (goStartsWith (filepathClean p) "/tmp/".toList
        || goStartsWith (filepathClean p) "/var/tmp/".toList) = true := by
      rcases Bool.and_eq_true_iff.mp hacc with ⟨_, h2⟩
      exact h2
    rw [if_neg (not_not_intro ((isAbs_filepathClean p).trans habs))]
    rw [if_neg (show ¬ goContains (filepathClean p) "..".toList = true from
      fun hh => Bool.false_ne_true ((hcont ▸ hh : (false : Bool) = true)))]
    rw [if_pos hpre]

/-- Counterexample for C3 as frozen: `/tmp/a..b` is absolute,
traversal-free and its normalised form lies under `/tmp/`, so the
specification's predicate accepts it — but `validatePath` rejects it
because the cleaned path contains the substring `..` inside a file
name. -/
theorem validatePath_rejects_inner_dotdot :
    specAccepts "/tmp/a..b".toList = true
    ∧ validatePath "/tmp/a..b".toList = some PathError.traversal
    ∧ validatePath "/tmp/a..b".toList ≠ none := by
  decide

theorem consAppendInj (a : Str) (c : Char) {x y : Str}
    (h : a ++ c :: x = a ++ c :: y) : x = y := by
  have h2 := (appendLeftCancel a (c :: x) (c :: y)).mp h
  injection h2

theorem lookupB_eq_none (key : Str) :
    ∀ l : List (Str × Bool), (∀ kv ∈ l, key ≠ kv.1) →
      AuthTable.lookupB l key = none := by
  intro l
  induction l with
  | nil => intro _; rfl
  | cons kv rest ih =>
    obtain ⟨k, v⟩ := kv
    intro h
    simp only [AuthTable.lookupB]
    rw [if_neg (h (k, v) (List.mem_cons_self _ _))]
    exact ih (fun kv2 hkv2 => h kv2 (List.mem_cons_of_mem _ hkv2))

theorem gnoi_lookup_bridge (M : Str) :
    (AuthTable.lookupB AuthTable.gnoiMethods ("system".toList ++ '.' :: M)).getD false
      = decide (M ∈ AuthSwitch.writeOps) := by
  by_cases h1 : M = "SetPackage".toList
  · subst h1; decide
  by_cases h2 : M = "Reboot".toList
  · subst h2; decide
  by_cases h3 : M = "KillProcess".toList
  · subst h3; decide
  by_cases h4 : M = "SwitchControlProcessor".toList
  · subst h4; decide
  by_cases h5 : M = "CancelReboot".toList
  · subst h5; decide
  by_cases h6 : M = "Ping".toList
  · subst h6; decide
  by_cases h7 : M = "Traceroute".toList
  · subst h7; decide
  by_cases h8 : M = "Time".toList
  · subst h8; decide
  by_cases h9 : M = "RebootStatus".toList
  · subst h9; decide
  have hnone : AuthTable.lookupB AuthTable.gnoiMethods ("system".toList ++ '.' :: M)
      = none := by
    apply lookupB_eq_none
    intro kv hkv
    simp only [AuthTable.gnoiMethods, List.mem_cons, List.not_mem_nil, or_false] at hkv
    rcases hkv with h | h | h | h | h | h | h | h | h <;> subst h <;> intro hEq
    · exact h1 (consAppendInj "system".toList '.' (hEq.trans (by decide)))
    · exact h2 (consAppendInj "system".toList '.' (hEq.trans (by decide)))
    · exact h3 (consAppendInj "system".toList '.' (hEq.trans (by decide)))
    · exact h4 (consAppendInj "system".toList '.' (hEq.trans (by decide)))
    · exact h5 (consAppendInj "system".toList '.' (hEq.trans (by decide)))
    · exact h6 (consAppendInj "system".toList '.' (hEq.trans (by decide)))
    · exact h7 (consAppendInj "system".toList '.' (hEq.trans (by decide)))
    · exact h8 (consAppendInj "system".toList '.' (hEq.trans (by decide)))
    · exact h9 (consAppendInj "system".toList '.' (hEq.trans (by decide)))
  have hw : ¬ (M ∈ AuthSwitch.writeOps) := by
    intro hm
    simp only [AuthSwitch.writeOps, List.mem_cons, List.not_mem_nil, or_false] at hm
    rcases hm with h | h | h | h | h
    · exact h2 h
    · exact h3 h
    · exact h1 h
    · exact h4 h
    · exact h5 h
  rw [hnone, decide_eq_false hw]
  rfl

theorem gnmi_lookup_bridge (M : Str) :
    (AuthTable.lookupB AuthTable.gnmiMethods M).getD false
      = decide (M = "Set".toList) := by
  by_cases h1 : M = "Set".toList
  · subst h1; decide
  by_cases h2 : M = "Get".toList
  · subst h2; decide
  by_cases h3 : M = "Subscribe".toList
  · subst h3; decide
  have hnone : AuthTable.lookupB AuthTable.gnmiMethods M = none := by
    apply lookupB_eq_none
    intro kv hkv
    simp only [AuthTable.gnmiMethods, List.mem_cons, List.not_mem_nil, or_false] at hkv
    rcases hkv with h | h | h <;> subst h
    · exact h1
    · exact h2
    · exact h3
  rw [hnone, decide_eq_false h1]
  rfl

theorem splitChar_canonical (S M : Str) (hS : '/' ∉ S) (hM : '/' ∉ M) :
    splitChar '/' ('/' :: S ++ '/' :: M) = [[], S, M] := by
  rw [show ('/' :: S ++ '/' :: M : Str) = '/' :: (S ++ '/' :: M) by simp]
  rw [splitChar_cons_self, splitChar_append_sep '/' S M hS, splitChar_no_sep '/' M hM]

theorem authTable_gnoi_eval (M : Str) (hM : '/' ∉ M)
    (hsk : skipAuth ('/' :: "gnoi.system.System".toList ++ '/' :: M) = false) :
    AuthTable.parseMethod ('/' :: "gnoi.system.System".toList ++ '/' :: M)
      = ("gnoi".toList,
          (AuthTable.lookupB AuthTable.gnoiMethods
            ("system".toList ++ '.' :: M)).getD false) := by
  unfold AuthTable.parseMethod
  rw [if_neg (by rw [hsk]; exact Bool.false_ne_true)]
  rw [splitChar_canonical "gnoi.system.System".toList M (by decide) hM]
  dsimp only
  rw [if_pos (show goStartsWith "gnoi.system.System".toList "gnoi.".toList = true
    from by decide)]
  rw [show splitChar '.' "gnoi.system.System".toList
      = ["gnoi".toList, "system".toList, "System".toList] from by decide]
  dsimp only
  cases hlb : AuthTable.lookupB AuthTable.gnoiMethods ("system".toList ++ '.' :: M) with
  | none => simp [hlb]
  | some w => simp [hlb]

theorem authTable_gnmi_eval (M : Str) (hM : '/' ∉ M)
    (hsk : skipAuth ('/' :: "gnmi.gNMI".toList ++ '/' :: M) = false) :
    AuthTable.parseMethod ('/' :: "gnmi.gNMI".toList ++ '/' :: M)
      = ("gnmi".toList, (AuthTable.lookupB AuthTable.gnmiMethods M).getD false) := by
  unfold AuthTable.parseMethod
  rw [if_neg (by rw [hsk]; exact Bool.false_ne_true)]
  rw [splitChar_canonical "gnmi.gNMI".toList M (by decide) hM]
  dsimp only
  rw [if_neg (show ¬ goStartsWith "gnmi.gNMI".toList "gnoi.".toList = true
    from by decide)]
  rw [if_pos (show ("gnmi.gNMI".toList : Str) = "gnmi.gNMI".toList from rfl)]
  cases hlb : AuthTable.lookupB AuthTable.gnmiMethods M with
  | none => simp [hlb]
  | some w => simp [hlb]

theorem authSwitch_gnoi_eval (M : Str) (hM : '/' ∉ M)
    (hsk : skipAuth ('/' :: "gnoi.system.System".toList ++ '/' :: M) = false) :
    AuthSwitch.parseMethod ('/' :: "gnoi.system.System".toList ++ '/' :: M)
      = ("gnoi".toList, decide (M ∈ AuthSwitch.writeOps)) := by
  unfold AuthSwitch.parseMethod
  rw [if_neg (by rw [hsk]; exact Bool.false_ne_true)]
  have hfull : ('/' :: "gnoi.system.System".toList ++ '/' :: M : Str)
      = "/gnoi.system.System/".toList ++ M := by
    rw [show ("/gnoi.system.System/".toList : Str)
        = ('/' :: "gnoi.system.System".toList) ++ ['/'] from by decide]
    simp
  have hc : goContains ('/' :: "gnoi.system.System".toList ++ '/' :: M)
      "/gnoi.system.System/".toList = true := by
    rw [hfull]
    exact goContains_of_startsWith (goStartsWith_append_self _ M)
  rw [if_pos hc]
  rw [splitChar_canonical "gnoi.system.System".toList M (by decide) hM]
  rw [if_pos (show 3 ≤ ([[], "gnoi.system.System".toList, M] : List Str).length
    from by simp)]
  rw [show (([[], "gnoi.system.System".toList, M] : List Str).getLast?).getD [] = M
    from rfl]
  by_cases hm : M ∈ AuthSwitch.writeOps
  · rw [if_pos hm, decide_eq_true hm]
  · rw [if_neg hm, decide_eq_false hm]

theorem no_gnoi_pattern_in_gnmi (M : Str) (hM : '/' ∉ M) :
    goContains ('/' :: "gnmi.gNMI".toList ++ '/' :: M)
      "/gnoi.system.System/".toList = false := by
  by_contra hcon
  rw [Bool.not_eq_false] at hcon
  obtain ⟨pre, post, hdec⟩ := (goContains_iff _ _).mp hcon
  rw [show ("/gnoi.system.System/".toList : Str)
      = ('/' :: "gnoi.system.System".toList) ++ ['/'] from by decide] at hdec
  have hpre0 : countChar '/' pre = 0 ∧ countChar '/' post = 0 := by
    have hcount := congrArg (countChar '/') hdec
    have cM : countChar '/' M = 0 := countChar_eq_zero.mpr hM
    simp [countChar_append, countChar, cM] at hcount
    omega
  have hpre : '/' ∉ pre := countChar_eq_zero.mp hpre0.1
  cases pre with
  | cons x xs =>
    simp only [List.cons_append, List.cons.injEq] at hdec
    exact absurd hdec.1.symm (fun hx => hpre (by simp [hx]))
  | nil =>
    simp only [List.nil_append, List.cons_append, List.append_assoc,
      List.cons.injEq, true_and] at hdec
    have huniq := sep_decomp_unique '/' "gnmi.gNMI".toList
      "gnoi.system.System".toList M post (by decide) (by decide) hdec
    exact absurd huniq.1 (by decide)

theorem authSwitch_gnmi_eval (M : Str) (hM : '/' ∉ M)
    (hsk : skipAuth ('/' :: "gnmi.gNMI".toList ++ '/' :: M) = false) :
    AuthSwitch.parseMethod ('/' :: "gnmi.gNMI".toList ++ '/' :: M)
      = ("gnmi".toList, decide (M = "Set".toList)) := by
  unfold AuthSwitch.parseMethod
  rw [if_neg (by rw [hsk]; exact Bool.false_ne_true)]
  rw [if_neg (by rw [no_gnoi_pattern_in_gnmi M hM]; exact Bool.false_ne_true)]
  have hfull : ('/' :: "gnmi.gNMI".toList ++ '/' :: M : Str)
      = "/gnmi.gNMI/".toList ++ M := by
    rw [show ("/gnmi.gNMI/".toList : Str)
        = ('/' :: "gnmi.gNMI".toList) ++ ['/'] from by decide]
    simp
  have hc : goContains ('/' :: "gnmi.gNMI".toList ++ '/' :: M)
      "/gnmi.gNMI/".toList = true := by
    rw [hfull]
    exact goContains_of_startsWith (goStartsWith_append_self _ M)
  rw [if_pos hc]
  rw [splitChar_canonical "gnmi.gNMI".toList M (by decide) hM]
  rw [if_pos (show 3 ≤ ([[], "gnmi.gNMI".toList, M] : List Str).length from by simp)]
  rw [show (([[], "gnmi.gNMI".toList, M] : List Str).getLast?).getD [] = M from rfl]
  by_cases hm : M = "Set".toList
  · rw [if_pos hm, decide_eq_true hm]
  · rw [if_neg hm, decide_eq_false hm]

/-- C9 (amended): on every full-method string of the two services the
middleware actually serves — `/gnoi.system.System/M` and
`/gnmi.gNMI/M` with a slash-free method name `M` — the lookup-table
`parseMethod` and the switch-based `parseMethod` return the same
`(service, writeAccess)` pair.  (They diverge on other gNOI services;
see the counterexample.) -/
theorem parseMethod_agree_on_served (M : Str) (hM : '/' ∉ M) :
    AuthTable.parseMethod ('/' :: "gnoi.system.System".toList ++ '/' :: M)
      = AuthSwitch.parseMethod ('/' :: "gnoi.system.System".toList ++ '/' :: M)
    ∧ AuthTable.parseMethod ('/' :: "gnmi.gNMI".toList ++ '/' :: M)
      = AuthSwitch.parseMethod ('/' :: "gnmi.gNMI".toList ++ '/' :: M) := by
  constructor
  · cases hsk : skipAuth ('/' :: "gnoi.system.System".toList ++ '/' :: M) with
    | true =>
      unfold AuthTable.parseMethod AuthSwitch.parseMethod
      rw [if_pos hsk, if_pos hsk]
    | false =>
      rw [authTable_gnoi_eval M hM hsk, authSwitch_gnoi_eval M hM hsk,
        gnoi_lookup_bridge M]
  · cases hsk : skipAuth ('/' :: "gnmi.gNMI".toList ++ '/' :: M) with
    | true =>
      unfold AuthTable.parseMethod AuthSwitch.parseMethod
      rw [if_pos hsk, if_pos hsk]
    | false =>
      rw [authTable_gnmi_eval M hM hsk, authSwitch_gnmi_eval M hM hsk,
        gnmi_lookup_bridge M]

/-- Witness for C9's amended agreement at the method name `Reboot`. -/
theorem parseMethod_agree_on_served_witness :
    ('/' ∉ "Reboot".toList)
    ∧ (AuthTable.parseMethod ('/' :: "gnoi.system.System".toList ++ '/' :: "Reboot".toList)
        = AuthSwitch.parseMethod ('/' :: "gnoi.system.System".toList ++ '/' :: "Reboot".toList)
      ∧ AuthTable.parseMethod ('/' :: "gnmi.gNMI".toList ++ '/' :: "Reboot".toList)
        = AuthSwitch.parseMethod ('/' :: "gnmi.gNMI".toList ++ '/' :: "Reboot".toList)) :=
  ⟨by decide, parseMethod_agree_on_served "Reboot".toList (by decide)⟩

/-- Counterexample for C9 as frozen: on `/gnoi.file.File/Remove` — a
method of a gNOI service other than System — the lookup-table variant
returns `("gnoi", false)` while the switch variant returns
`("unknown", false)`, so the two implementations do not agree on every
full-method string. -/
theorem parseMethod_disagree_on_file_service :
    AuthTable.parseMethod "/gnoi.file.File/Remove".toList = ("gnoi".toList, false)
    ∧ AuthSwitch.parseMethod "/gnoi.file.File/Remove".toList = ("unknown".toList, false)
    ∧ AuthTable.parseMethod "/gnoi.file.File/Remove".toList
        ≠ AuthSwitch.parseMethod "/gnoi.file.File/Remove".toList := by
  decide
